import Mathlib

/-!
Verification of the M-code analysis and dependency-resolution core of
`xl-pq-handler` (files `parser.py`, `dependencies.py`, `models.py`,
`storage.py`).  Python strings are embedded as `List Char`; the fixed
regular expressions of `parser.py` are embedded as hand-compiled matchers
implementing Python `re` semantics (ordered alternation, greedy/lazy
quantifiers with backtracking, word boundaries) for those specific
patterns.  Character classes follow the ASCII reading of the patterns;
`re.IGNORECASE` (used only by `TOKEN_REGEX`) is modelled by
case-insensitive comparison of ASCII letters.
-/

namespace XlPq

/-- The single-quote character, used by the YAML scalar model. -/
def SQ : Char := Char.ofNat 39

/-- Python regex word character `\w` restricted to ASCII:
letters, digits and underscore. -/
def isWordChar (c : Char) : Bool := c.isAlpha || c.isDigit || c == '_'

def isWordOpt : Option Char → Bool
  | none => false
  | some c => isWordChar c

/-- Regex `\b`: a word boundary stands between two characters (either of
which may be absent, at the ends of the input) iff exactly one of them is
a word character. -/
def isBoundary (prev next : Option Char) : Bool := isWordOpt prev != isWordOpt next

/-- Python `str.lower` (ASCII). -/
def pyLower (s : List Char) : List Char := s.map Char.toLower

/-- Token kinds of `TOKEN_SPEC` in `parser.py`. -/
inductive TKind where
  | COMMENT
  | STRING
  | KEYWORD
  | DATASOURCE
  | FUNCTION
  | NUMBER
  | OPERATOR
  | IDENTIFIER
  | OTHER
deriving DecidableEq, Repr

/-- `M_KEYWORDS` of `parser.py`, in tuple order. -/
def M_KEYWORDS : List (List Char) :=
  ["let", "in", "if", "then", "else", "each", "try", "otherwise",
   "type", "meta", "as", "is", "section", "shared", "true", "false", "null"].map
    String.toList

/-- `M_DATA_SOURCES` of `parser.py`, in tuple order. -/
def M_DATA_SOURCES : List (List Char) :=
  ["Sql.Database", "Web.Contents", "File.Contents", "Excel.Workbook",
   "Excel.CurrentWorkbook", "Csv.Document", "Json.Document", "Odbc.DataSource",
   "Folder.Files", "SharePoint.Files", "PowerBI.Dataflows"].map String.toList

/-- Scan for the earliest closing `*/` (the lazy `.*?\*/` of the COMMENT
alternative); returns the consumed text (closing delimiter included) and
the rest. -/
def findCommentClose : List Char → Option (List Char × List Char)
  | [] => none
  | c :: rest =>
    if c == '*' && rest.head? == some '/' then some (['*', '/'], rest.tail)
    else
      match findCommentClose rest with
      | some (v, r) => some (c :: v, r)
      | none => none

/-- COMMENT alternative `//[^\n]*|/\*.*?\*/` at the current position. -/
def tryComment : List Char → Option (List Char × List Char)
  | '/' :: '/' :: rest =>
    some ('/' :: '/' :: rest.takeWhile (· != '\n'), rest.dropWhile (· != '\n'))
  | '/' :: '*' :: rest =>
    match findCommentClose rest with
    | some (v, r) => some ('/' :: '*' :: v, r)
    | none => none
  | _ => none

/-- A double-quoted run `"[^"]*"` at the current position. -/
def tryQuoted : List Char → Option (List Char × List Char)
  | '"' :: rest =>
    match rest.dropWhile (· != '"') with
    | '"' :: r => some ('"' :: rest.takeWhile (· != '"') ++ ['"'], r)
    | _ => none
  | _ => none

/-- STRING alternative `#"[^"]*"|"[^"]*"` at the current position. -/
def tryString : List Char → Option (List Char × List Char)
  | '#' :: '"' :: rest =>
    match tryQuoted ('"' :: rest) with
    | some (v, r) => some ('#' :: v, r)
    | none => none
  | '"' :: rest => tryQuoted ('"' :: rest)
  | _ => none

/-- Case-insensitively strip a literal alternative; returns the consumed
input characters (original casing preserved) and the rest. -/
def stripPrefixCI : List Char → List Char → Option (List Char × List Char)
  | [], s => some ([], s)
  | _ :: _, [] => none
  | p :: ps, c :: cs =>
    if c.toLower == p.toLower then
      match stripPrefixCI ps cs with
      | some (v, r) => some (c :: v, r)
      | none => none
    else none

/-- Try a list of literal alternatives in order (regex group alternation),
each followed by a `\b` check; on a failed `\b` the engine backtracks to
the next alternative. -/
def tryAlts : List (List Char) → List Char → Option (List Char × List Char)
  | [], _ => none
  | a :: rest, s =>
    match stripPrefixCI a s with
    | some (v, r) =>
      if isBoundary v.getLast? r.head? then some (v, r) else tryAlts rest s
    | none => tryAlts rest s

/-- KEYWORD alternative: leading `\b`, then the keyword alternation with a
trailing `\b`. -/
def tryKeyword (prev : Option Char) (s : List Char) : Option (List Char × List Char) :=
  if isBoundary prev s.head? then tryAlts M_KEYWORDS s else none

/-- DATASOURCE alternative, same shape over `M_DATA_SOURCES`. -/
def tryDatasource (prev : Option Char) (s : List Char) : Option (List Char × List Char) :=
  if isBoundary prev s.head? then tryAlts M_DATA_SOURCES s else none

/-- Backtrack a greedy character-class run until the trailing `\b` holds:
given the mandatory character `lastC` before the run, the run in reverse
(`keptRev`) and the input after it, drop characters from the end of the
run until a boundary is found; returns the kept run and the new rest. -/
def shrinkAux (lastC : Char) : List Char → List Char → Option (List Char × List Char)
  | [], after => if isBoundary (some lastC) after.head? then some ([], after) else none
  | k :: ks, after =>
    if isBoundary (some k) after.head? then some ((k :: ks).reverse, after)
    else shrinkAux lastC ks (k :: after)

def shrink (lastC : Char) (run after : List Char) : Option (List Char × List Char) :=
  shrinkAux lastC run.reverse after

/-- FUNCTION alternative `\b[A-Z][a-zA-Z0-9_]*\.[A-Z][a-zA-Z0-9_.]*\b`.
Because `TOKEN_REGEX` is compiled with `re.IGNORECASE`, the `[A-Z]`
classes match any ASCII letter.  The first `[a-zA-Z0-9_]*` run never needs
backtracking (its class is disjoint from `\.`); the trailing
`[a-zA-Z0-9_.]*` run backtracks to satisfy the final `\b`. -/
def tryFunction (prev : Option Char) (s : List Char) : Option (List Char × List Char) :=
  if isBoundary prev s.head? then
    match s with
    | [] => none
    | c :: rest =>
      if c.isAlpha then
        match rest.dropWhile isWordChar with
        | '.' :: (d :: r3) =>
          if d.isAlpha then
            match shrink d (r3.takeWhile fun x => isWordChar x || x == '.')
                (r3.dropWhile fun x => isWordChar x || x == '.') with
            | some (kept, after2) =>
              some (c :: rest.takeWhile isWordChar ++ '.' :: d :: kept, after2)
            | none => none
          else none
        | _ => none
      else none
  else none

/-- NUMBER alternative `\b\d+(\.\d*)?\b`.  Shrinking the mandatory `\d+`
run can never make the continuation match (the exposed character is a
digit, which satisfies neither `\.` nor a boundary), so only the optional
group's `\d*` backtracks; if the whole optional group fails it is
dropped. -/
def tryNumber (prev : Option Char) (s : List Char) : Option (List Char × List Char) :=
  if isBoundary prev s.head? then
    match s.takeWhile Char.isDigit with
    | [] => none
    | d0 :: ds =>
      match s.dropWhile Char.isDigit with
      | '.' :: r2 =>
        match shrink '.' (r2.takeWhile Char.isDigit) (r2.dropWhile Char.isDigit) with
        | some (kept, after2) => some ((d0 :: ds) ++ '.' :: kept, after2)
        | none =>
          if isBoundary (d0 :: ds).getLast? (some '.') then
            some (d0 :: ds, '.' :: r2)
          else none
      | r1 =>
        if isBoundary (d0 :: ds).getLast? r1.head? then some (d0 :: ds, r1) else none
  else none

/-- OPERATOR class: the characters `= < > [ ] { } ( ) & * ;` plus the
class range from `+` (43) to `/` (47) — written `+`, dash, `/` in the
pattern — which therefore also contains `,`, `-` and `.`. -/
def OP_CHARS : List Char :=
  ['=', '<', '>', '[', ']', '{', '}', '(', ')', '&', '+', ',', '-', '.', '/', '*', ';']

def tryOperator : List Char → Option (List Char × List Char)
  | c :: rest => if OP_CHARS.contains c then some ([c], rest) else none
  | [] => none

/-- IDENTIFIER alternative `\b[a-zA-Z_][a-zA-Z0-9_]*\b`; with ASCII word
characters the trailing `\b` always holds after the maximal run. -/
def tryIdentifier (prev : Option Char) (s : List Char) : Option (List Char × List Char) :=
  if isBoundary prev s.head? then
    match s with
    | [] => none
    | c :: rest =>
      if c.isAlpha || c == '_' then
        some (c :: rest.takeWhile isWordChar, rest.dropWhile isWordChar)
      else none
  else none

/-- One `finditer` step of `TOKEN_REGEX`: the alternatives of `TOKEN_SPEC`
are tried in order at the current position; the OTHER fallback `.` (with
`re.DOTALL`) consumes exactly one arbitrary character. -/
def tokenStep (prev : Option Char) (s : List Char) : (List Char × TKind) × List Char :=
  match tryComment s with
  | some (v, r) => ((v, .COMMENT), r)
  | none =>
  match tryString s with
  | some (v, r) => ((v, .STRING), r)
  | none =>
  match tryKeyword prev s with
  | some (v, r) => ((v, .KEYWORD), r)
  | none =>
  match tryDatasource prev s with
  | some (v, r) => ((v, .DATASOURCE), r)
  | none =>
  match tryFunction prev s with
  | some (v, r) => ((v, .FUNCTION), r)
  | none =>
  match tryNumber prev s with
  | some (v, r) => ((v, .NUMBER), r)
  | none =>
  match tryOperator s with
  | some (v, r) => ((v, .OPERATOR), r)
  | none =>
  match tryIdentifier prev s with
  | some (v, r) => ((v, .IDENTIFIER), r)
  | none =>
  match s with
  | c :: rest => (([c], .OTHER), rest)
  | [] => (([], .OTHER), [])

/-- Fuel-indexed scan; since every step consumes at least one character,
fuel equal to the input length always suffices. -/
def scanTokensAux : Nat → Option Char → List Char → List (List Char × TKind)
  | 0, _, _ => []
  | _ + 1, _, [] => []
  | n + 1, prev, c :: rest =>
    let st := tokenStep prev (c :: rest)
    st.1 :: scanTokensAux n st.1.1.getLast? st.2

/-- `ExcelMCodeParser.get_tokens`: the list of `(value, kind)` pairs of
`TOKEN_REGEX.finditer(body)`. -/
def get_tokens (body : String) : List (String × TKind) :=
  (scanTokensAux body.toList.length none body.toList).map fun vk => (vk.1.asString, vk.2)

lemma findCommentClose_spec :
    ∀ (s v r : List Char), findCommentClose s = some (v, r) → v ++ r = s ∧ v ≠ [] := by
  intro s
  induction s with
  | nil => intro v r h; simp [findCommentClose] at h
  | cons c rest ih =>
    intro v r h
    unfold findCommentClose at h
    split at h
    · rename_i hc
      simp only [Bool.and_eq_true, beq_iff_eq, Option.some.injEq, Prod.mk.injEq] at hc h
      obtain ⟨hv, hr⟩ := h
      rw [← hv, ← hr]
      obtain ⟨hc1, hc2⟩ := hc
      subst hc1
      refine ⟨?_, by simp⟩
      have hrt : '/' :: rest.tail = rest := List.cons_head?_tail hc2
      calc ['*', '/'] ++ rest.tail = '*' :: ('/' :: rest.tail) := rfl
        _ = '*' :: rest := by rw [hrt]
    · split at h
      · rename_i v2 r2 h2
        simp only [Option.some.injEq, Prod.mk.injEq] at h
        obtain ⟨hv, hr⟩ := h
        rw [← hv, ← hr]
        obtain ⟨ha, _⟩ := ih v2 r2 h2
        exact ⟨by simp [ha], by simp⟩
      · exact absurd h (by simp)

lemma tryComment_spec :
    ∀ (s v r : List Char), tryComment s = some (v, r) → v ++ r = s ∧ v ≠ [] := by
  intro s v r h
  unfold tryComment at h
  split at h
  · simp only [Option.some.injEq, Prod.mk.injEq] at h
    obtain ⟨hv, hr⟩ := h
    subst hv hr
    refine ⟨?_, by simp⟩
    simp [List.takeWhile_append_dropWhile]
  · rename_i rest
    match h2 : findCommentClose rest with
    | some (v2, r2) =>
      rw [h2] at h
      simp only [Option.some.injEq, Prod.mk.injEq] at h
      obtain ⟨hv, hr⟩ := h
      subst hv hr
      obtain ⟨ha, _⟩ := findCommentClose_spec rest v2 r2 h2
      exact ⟨by simp [ha], by simp⟩
    | none => rw [h2] at h; exact absurd h (by simp)
  · exact absurd h (by simp)

lemma tryQuoted_spec :
    ∀ (s v r : List Char), tryQuoted s = some (v, r) → v ++ r = s ∧ v ≠ [] := by
  intro s v r h
  unfold tryQuoted at h
  split at h
  · rename_i rest
    split at h
    · rename_i r2 heq
      simp only [Option.some.injEq, Prod.mk.injEq] at h
      obtain ⟨hv, hr⟩ := h
      subst hv hr
      refine ⟨?_, by simp⟩
      have := List.takeWhile_append_dropWhile (p := fun c => c != '"') (l := rest)
      simp only [List.cons_append, List.append_assoc, List.cons_append, List.nil_append]
      rw [← heq] at *
      simp [this]
    · exact absurd h (by simp)
  · exact absurd h (by simp)

lemma tryString_spec :
    ∀ (s v r : List Char), tryString s = some (v, r) → v ++ r = s ∧ v ≠ [] := by
  intro s v r h
  unfold tryString at h
  split at h
  · rename_i rest
    match h2 : tryQuoted ('"' :: rest) with
    | some (v2, r2) =>
      rw [h2] at h
      simp only [Option.some.injEq, Prod.mk.injEq] at h
      obtain ⟨hv, hr⟩ := h
      subst hv hr
      obtain ⟨ha, _⟩ := tryQuoted_spec _ v2 r2 h2
      exact ⟨by simpa using congrArg (List.cons '#') ha, by simp⟩
    | none => rw [h2] at h; exact absurd h (by simp)
  · rename_i rest _
    obtain ⟨ha, hv⟩ := tryQuoted_spec _ v r h
    exact ⟨ha, hv⟩
  · exact absurd h (by simp)

lemma stripPrefixCI_spec :
    ∀ (p s v r : List Char), stripPrefixCI p s = some (v, r) →
      v ++ r = s ∧ v.length = p.length := by
  intro p
  induction p with
  | nil =>
    intro s v r h
    simp only [stripPrefixCI, Option.some.injEq, Prod.mk.injEq] at h
    obtain ⟨hv, hr⟩ := h
    subst hv hr
    exact ⟨rfl, rfl⟩
  | cons pc ps ih =>
    intro s v r h
    cases s with
    | nil => simp [stripPrefixCI] at h
    | cons c cs =>
      unfold stripPrefixCI at h
      split at h
      · match h2 : stripPrefixCI ps cs with
        | some (v2, r2) =>
          rw [h2] at h
          simp only [Option.some.injEq, Prod.mk.injEq] at h
          obtain ⟨hv, hr⟩ := h
          subst hv hr
          obtain ⟨ha, hl⟩ := ih cs v2 r2 h2
          exact ⟨by simp [ha], by simp [hl]⟩
        | none => rw [h2] at h; exact absurd h (by simp)
      · exact absurd h (by simp)

lemma tryAlts_spec :
    ∀ (alts : List (List Char)) (s v r : List Char),
      (∀ a ∈ alts, a ≠ []) → tryAlts alts s = some (v, r) → v ++ r = s ∧ v ≠ [] := by
  intro alts
  induction alts with
  | nil => intro s v r _ h; simp [tryAlts] at h
  | cons a rest ih =>
    intro s v r hne h
    unfold tryAlts at h
    split at h
    · rename_i v2 r2 heq
      split at h
      · simp only [Option.some.injEq, Prod.mk.injEq] at h
        obtain ⟨hv, hr⟩ := h
        rw [← hv, ← hr]
        obtain ⟨ha, hl⟩ := stripPrefixCI_spec a s v2 r2 heq
        refine ⟨ha, ?_⟩
        intro hnil
        apply hne a (by simp)
        apply List.eq_nil_of_length_eq_zero
        rw [← hl, hnil]
        rfl
      · exact ih s v r (fun x hx => hne x (by simp [hx])) h
    · exact ih s v r (fun x hx => hne x (by simp [hx])) h

lemma tryKeyword_spec :
    ∀ (prev : Option Char) (s v r : List Char),
      tryKeyword prev s = some (v, r) → v ++ r = s ∧ v ≠ [] := by
  intro prev s v r h
  unfold tryKeyword at h
  split at h
  · exact tryAlts_spec M_KEYWORDS s v r (by decide) h
  · exact absurd h (by simp)

lemma tryDatasource_spec :
    ∀ (prev : Option Char) (s v r : List Char),
      tryDatasource prev s = some (v, r) → v ++ r = s ∧ v ≠ [] := by
  intro prev s v r h
  unfold tryDatasource at h
  split at h
  · exact tryAlts_spec M_DATA_SOURCES s v r (by decide) h
  · exact absurd h (by simp)

lemma shrinkAux_spec :
    ∀ (kr : List Char) (lastC : Char) (after kept aft : List Char),
      shrinkAux lastC kr after = some (kept, aft) → kept ++ aft = kr.reverse ++ after := by
  intro kr
  induction kr with
  | nil =>
    intro lastC after kept aft h
    unfold shrinkAux at h
    split at h
    · simp only [Option.some.injEq, Prod.mk.injEq] at h
      obtain ⟨hv, hr⟩ := h
      subst hv hr
      simp
    · exact absurd h (by simp)
  | cons k ks ih =>
    intro lastC after kept aft h
    unfold shrinkAux at h
    split at h
    · simp only [Option.some.injEq, Prod.mk.injEq] at h
      obtain ⟨hv, hr⟩ := h
      subst hv hr
      simp
    · have := ih lastC (k :: after) kept aft h
      simpa [List.append_assoc] using this

lemma shrink_spec :
    ∀ (lastC : Char) (run after kept aft : List Char),
      shrink lastC run after = some (kept, aft) → kept ++ aft = run ++ after := by
  intro lastC run after kept aft h
  have := shrinkAux_spec run.reverse lastC after kept aft h
  simpa using this

lemma tryFunction_spec :
    ∀ (prev : Option Char) (s v r : List Char),
      tryFunction prev s = some (v, r) → v ++ r = s ∧ v ≠ [] := by
  intro prev s v r h
  unfold tryFunction at h
  split at h
  · split at h
    · exact absurd h (by simp)
    · rename_i c rest hbd
      split at h
      · split at h
        · rename_i d r3 hdrop
          split at h
          · split at h
            · rename_i kept after2 hshrink
              simp only [Option.some.injEq, Prod.mk.injEq] at h
              obtain ⟨hv, hr⟩ := h
              rw [← hv, ← hr]
              have hka := shrink_spec d _ _ kept after2 hshrink
              rw [List.takeWhile_append_dropWhile] at hka
              refine ⟨?_, by simp⟩
              have hmid : rest.takeWhile isWordChar ++ '.' :: d :: (kept ++ after2) =
                  rest.takeWhile isWordChar ++ '.' :: d :: r3 := by rw [hka]
              calc (c :: rest.takeWhile isWordChar ++ '.' :: d :: kept) ++ after2
                  = c :: (rest.takeWhile isWordChar ++ '.' :: d :: (kept ++ after2)) := by simp
                _ = c :: (rest.takeWhile isWordChar ++ '.' :: d :: r3) := by rw [hmid]
                _ = c :: rest := by
                    rw [← hdrop, List.takeWhile_append_dropWhile]
            · exact absurd h (by simp)
          · exact absurd h (by simp)
        · exact absurd h (by simp)
      · exact absurd h (by simp)
  · exact absurd h (by simp)

lemma tryNumber_spec :
    ∀ (prev : Option Char) (s v r : List Char),
      tryNumber prev s = some (v, r) → v ++ r = s ∧ v ≠ [] := by
  intro prev s v r h
  have hs := List.takeWhile_append_dropWhile (p := Char.isDigit) (l := s)
  unfold tryNumber at h
  split at h
  · split at h
    · exact absurd h (by simp)
    · rename_i d0 ds htake
      split at h
      · rename_i r2 hdrop
        split at h
        · rename_i kept after2 hshrink
          simp only [Option.some.injEq, Prod.mk.injEq] at h
          obtain ⟨hv, hr⟩ := h
          rw [← hv, ← hr]
          have hka := shrink_spec '.' _ _ kept after2 hshrink
          rw [List.takeWhile_append_dropWhile] at hka
          rw [htake, hdrop] at hs
          refine ⟨?_, by simp⟩
          calc ((d0 :: ds) ++ '.' :: kept) ++ after2
              = (d0 :: ds) ++ '.' :: (kept ++ after2) := by simp
            _ = (d0 :: ds) ++ '.' :: r2 := by rw [hka]
            _ = s := hs
        · split at h
          · simp only [Option.some.injEq, Prod.mk.injEq] at h
            obtain ⟨hv, hr⟩ := h
            rw [← hv, ← hr]
            refine ⟨?_, by simp⟩
            simp_all
          · exact absurd h (by simp)
      · split at h
        · simp only [Option.some.injEq, Prod.mk.injEq] at h
          obtain ⟨hv, hr⟩ := h
          rw [← hv, ← hr]
          refine ⟨?_, by simp⟩
          simp_all
        · exact absurd h (by simp)
  · exact absurd h (by simp)

lemma tryOperator_spec :
    ∀ (s v r : List Char), tryOperator s = some (v, r) → v ++ r = s ∧ v ≠ [] := by
  intro s v r h
  unfold tryOperator at h
  split at h
  · split at h
    · simp only [Option.some.injEq, Prod.mk.injEq] at h
      obtain ⟨hv, hr⟩ := h
      subst hv hr
      exact ⟨rfl, by simp⟩
    · exact absurd h (by simp)
  · exact absurd h (by simp)

lemma tryIdentifier_spec :
    ∀ (prev : Option Char) (s v r : List Char),
      tryIdentifier prev s = some (v, r) → v ++ r = s ∧ v ≠ [] := by
  intro prev s v r h
  unfold tryIdentifier at h
  split at h
  · split at h
    · exact absurd h (by simp)
    · split at h
      · simp only [Option.some.injEq, Prod.mk.injEq] at h
        obtain ⟨hv, hr⟩ := h
        subst hv hr
        exact ⟨by simp [List.takeWhile_append_dropWhile], by simp⟩
      · exact absurd h (by simp)
  · exact absurd h (by simp)

lemma tokenStep_spec (prev : Option Char) (s : List Char) (hs : s ≠ []) :
    (tokenStep prev s).1.1 ≠ [] ∧ (tokenStep prev s).1.1 ++ (tokenStep prev s).2 = s := by
  rcases h1 : tryComment s with _ | ⟨v, r⟩
  swap
  · obtain ⟨ha, hv⟩ := tryComment_spec s v r h1
    simp [tokenStep, h1, hv, ha]
  rcases h2 : tryString s with _ | ⟨v, r⟩
  swap
  · obtain ⟨ha, hv⟩ := tryString_spec s v r h2
    simp [tokenStep, h1, h2, hv, ha]
  rcases h3 : tryKeyword prev s with _ | ⟨v, r⟩
  swap
  · obtain ⟨ha, hv⟩ := tryKeyword_spec prev s v r h3
    simp [tokenStep, h1, h2, h3, hv, ha]
  rcases h4 : tryDatasource prev s with _ | ⟨v, r⟩
  swap
  · obtain ⟨ha, hv⟩ := tryDatasource_spec prev s v r h4
    simp [tokenStep, h1, h2, h3, h4, hv, ha]
  rcases h5 : tryFunction prev s with _ | ⟨v, r⟩
  swap
  · obtain ⟨ha, hv⟩ := tryFunction_spec prev s v r h5
    simp [tokenStep, h1, h2, h3, h4, h5, hv, ha]
  rcases h6 : tryNumber prev s with _ | ⟨v, r⟩
  swap
  · obtain ⟨ha, hv⟩ := tryNumber_spec prev s v r h6
    simp [tokenStep, h1, h2, h3, h4, h5, h6, hv, ha]
  rcases h7 : tryOperator s with _ | ⟨v, r⟩
  swap
  · obtain ⟨ha, hv⟩ := tryOperator_spec s v r h7
    simp [tokenStep, h1, h2, h3, h4, h5, h6, h7, hv, ha]
  rcases h8 : tryIdentifier prev s with _ | ⟨v, r⟩
  swap
  · obtain ⟨ha, hv⟩ := tryIdentifier_spec prev s v r h8
    simp [tokenStep, h1, h2, h3, h4, h5, h6, h7, h8, hv, ha]
  cases s with
  | nil => exact absurd rfl hs
  | cons c rest => simp [tokenStep, h1, h2, h3, h4, h5, h6, h7, h8]

lemma scanTokensAux_concat :
    ∀ (n : Nat) (prev : Option Char) (s : List Char), s.length ≤ n →
      ((scanTokensAux n prev s).map Prod.fst).foldr (· ++ ·) [] = s := by
  intro n
  induction n with
  | zero =>
    intro prev s h
    have : s = [] := List.eq_nil_of_length_eq_zero (Nat.le_zero.mp h)
    subst this
    simp [scanTokensAux]
  | succ n ih =>
    intro prev s h
    cases s with
    | nil => simp [scanTokensAux]
    | cons c rest =>
      obtain ⟨hne, happ⟩ := tokenStep_spec prev (c :: rest) (by simp)
      simp only [scanTokensAux, List.map_cons, List.foldr_cons]
      rw [ih _ _ ?_]
      · exact happ
      · simp only [List.length_cons] at h
        have hlen : (tokenStep prev (c :: rest)).1.1.length +
            (tokenStep prev (c :: rest)).2.length = rest.length + 1 := by
          have := congrArg List.length happ
          simpa using this
        have hpos : 1 ≤ (tokenStep prev (c :: rest)).1.1.length :=
          Nat.one_le_iff_ne_zero.mpr (by
            intro h0
            exact hne (List.eq_nil_of_length_eq_zero h0))
        omega

lemma foldl_append_data (l : List String) :
    ∀ (init : String), (l.foldl (· ++ ·) init).data = init.data ++ (l.map String.data).flatten := by
  induction l with
  | nil => intro init; simp
  | cons a rest ih =>
    intro init
    simp only [List.foldl_cons, ih, List.map_cons, List.flatten_cons, String.data_append]
    simp

lemma join_data (l : List String) :
    (String.join l).data = (l.map String.data).flatten := by
  have := foldl_append_data l ""
  simpa [String.join] using this

lemma foldr_append_eq_flatten (l : List (List Char)) :
    l.foldr (· ++ ·) [] = l.flatten := by
  induction l with
  | nil => rfl
  | cons a rest ih => simp [ih]

/-- C1: for every input string `body` — the empty string, binary garbage and
unterminated comments or strings included — `get_tokens body` terminates
(it is a total function) and the concatenation of the returned token
values, in order, reproduces `body` exactly: no text is dropped or
rewritten.  This holds because the OTHER fallback pattern consumes one
arbitrary character whenever every other alternative fails. -/
theorem get_tokens_concat_exact (body : String) :
    String.join ((get_tokens body).map Prod.fst) = body := by
  apply String.ext
  rw [join_data]
  have hscan := scanTokensAux_concat body.toList.length none body.toList (le_refl _)
  rw [foldr_append_eq_flatten] at hscan
  unfold get_tokens
  simp only [List.map_map]
  have hmaps : ((scanTokensAux body.toList.length none body.toList).map
      (String.data ∘ Prod.fst ∘ fun vk => (vk.1.asString, vk.2))) =
      (scanTokensAux body.toList.length none body.toList).map Prod.fst := by
    apply List.map_congr_left
    intro vk _
    rfl
  rw [hmaps, hscan]
  rfl

/-- The true shape of every FUNCTION token value, as compiled with
`re.IGNORECASE`: an ASCII letter of either case, then word characters, a
dot, a letter of either case, then word characters or dots. -/
def functionShape (v : List Char) : Bool :=
  match v with
  | [] => false
  | c :: rest =>
    c.isAlpha &&
      (match rest.dropWhile isWordChar with
       | '.' :: (d :: tail2) => d.isAlpha && tail2.all (fun x => isWordChar x || x == '.')
       | _ => false)

lemma shrinkAux_subset :
    ∀ (kr : List Char) (lastC : Char) (after kept aft : List Char),
      shrinkAux lastC kr after = some (kept, aft) → ∀ x ∈ kept, x ∈ kr := by
  intro kr
  induction kr with
  | nil =>
    intro lastC after kept aft h
    unfold shrinkAux at h
    split at h
    · simp only [Option.some.injEq, Prod.mk.injEq] at h
      obtain ⟨hv, _⟩ := h
      rw [← hv]
      simp
    · exact absurd h (by simp)
  | cons k ks ih =>
    intro lastC after kept aft h
    unfold shrinkAux at h
    split at h
    · simp only [Option.some.injEq, Prod.mk.injEq] at h
      obtain ⟨hv, _⟩ := h
      rw [← hv]
      intro x hx
      simpa using (List.mem_reverse.mp hx)
    · intro x hx
      exact List.mem_cons_of_mem k (ih lastC (k :: after) kept aft h x hx)

lemma dropWhile_append_all {p : Char → Bool} :
    ∀ (xs ys : List Char), (∀ x ∈ xs, p x = true) →
      (xs ++ ys).dropWhile p = ys.dropWhile p := by
  intro xs
  induction xs with
  | nil => intro ys _; rfl
  | cons x xs ih =>
    intro ys hall
    simp only [List.cons_append, List.dropWhile_cons, hall x (by simp)]
    exact ih ys fun y hy => hall y (by simp [hy])

lemma tryFunction_shape :
    ∀ (prev : Option Char) (s v r : List Char),
      tryFunction prev s = some (v, r) → functionShape v = true := by
  intro prev s v r h
  unfold tryFunction at h
  split at h
  · split at h
    · exact absurd h (by simp)
    · rename_i c rest hbd
      split at h
      · rename_i hca
        split at h
        · rename_i d r3 hdrop
          split at h
          · rename_i hda
            split at h
            · rename_i kept after2 hshrink
              simp only [Option.some.injEq, Prod.mk.injEq] at h
              obtain ⟨hv, _⟩ := h
              rw [← hv]
              have hsub := shrinkAux_subset _ d _ kept after2 hshrink
              have hkeep : ∀ x ∈ kept, (isWordChar x || x == '.') = true := by
                intro x hx
                have hmem := hsub x hx
                rw [List.mem_reverse] at hmem
                simpa using List.mem_takeWhile_imp hmem
              have htk : ∀ x ∈ rest.takeWhile isWordChar, isWordChar x = true :=
                fun x hx => List.mem_takeWhile_imp hx
              have hdot : isWordChar '.' = false := by decide
              have hdw : (rest.takeWhile isWordChar ++ '.' :: d :: kept).dropWhile isWordChar
                  = '.' :: d :: kept := by
                rw [dropWhile_append_all _ _ htk]
                simp [List.dropWhile_cons, hdot]
              simp [functionShape, hdw, hca, hda, List.all_eq_true]
              intro x hx
              simpa using hkeep x hx
            · exact absurd h (by simp)
          · exact absurd h (by simp)
        · exact absurd h (by simp)
      · exact absurd h (by simp)
  · exact absurd h (by simp)

lemma tokenStep_function_shape (prev : Option Char) (s : List Char)
    (h : (tokenStep prev s).1.2 = TKind.FUNCTION) :
    functionShape (tokenStep prev s).1.1 = true := by
  rcases h1 : tryComment s with _ | ⟨v, r⟩
  swap
  · have heq : tokenStep prev s = ((v, TKind.COMMENT), r) := by simp [tokenStep, h1]
    rw [heq] at h
    simp at h
  rcases h2 : tryString s with _ | ⟨v, r⟩
  swap
  · have heq : tokenStep prev s = ((v, TKind.STRING), r) := by simp [tokenStep, h1, h2]
    rw [heq] at h
    simp at h
  rcases h3 : tryKeyword prev s with _ | ⟨v, r⟩
  swap
  · have heq : tokenStep prev s = ((v, TKind.KEYWORD), r) := by simp [tokenStep, h1, h2, h3]
    rw [heq] at h
    simp at h
  rcases h4 : tryDatasource prev s with _ | ⟨v, r⟩
  swap
  · have heq : tokenStep prev s = ((v, TKind.DATASOURCE), r) := by
      simp [tokenStep, h1, h2, h3, h4]
    rw [heq] at h
    simp at h
  rcases h5 : tryFunction prev s with _ | ⟨v, r⟩
  swap
  · have heq : tokenStep prev s = ((v, TKind.FUNCTION), r) := by
      simp [tokenStep, h1, h2, h3, h4, h5]
    rw [heq]
    exact tryFunction_shape prev s v r h5
  rcases h6 : tryNumber prev s with _ | ⟨v, r⟩
  swap
  · have heq : tokenStep prev s = ((v, TKind.NUMBER), r) := by
      simp [tokenStep, h1, h2, h3, h4, h5, h6]
    rw [heq] at h
    simp at h
  rcases h7 : tryOperator s with _ | ⟨v, r⟩
  swap
  · have heq : tokenStep prev s = ((v, TKind.OPERATOR), r) := by
      simp [tokenStep, h1, h2, h3, h4, h5, h6, h7]
    rw [heq] at h
    simp at h
  rcases h8 : tryIdentifier prev s with _ | ⟨v, r⟩
  swap
  · have heq : tokenStep prev s = ((v, TKind.IDENTIFIER), r) := by
      simp [tokenStep, h1, h2, h3, h4, h5, h6, h7, h8]
    rw [heq] at h
    simp at h
  cases s with
  | nil =>
    have heq : tokenStep prev [] = (([], TKind.OTHER), []) := by
      simp [tokenStep, h1, h2, h3, h4, h5, h6, h7, h8]
    rw [heq] at h
    simp at h
  | cons c rest =>
    have heq : tokenStep prev (c :: rest) = (([c], TKind.OTHER), rest) := by
      simp [tokenStep, h1, h2, h3, h4, h5, h6, h7, h8]
    rw [heq] at h
    simp at h

lemma scanTokensAux_function_shape :
    ∀ (n : Nat) (prev : Option Char) (s : List Char) (v : List Char),
      (v, TKind.FUNCTION) ∈ scanTokensAux n prev s → functionShape v = true := by
  intro n
  induction n with
  | zero => intro prev s v h; simp [scanTokensAux] at h
  | succ n ih =>
    intro prev s v h
    cases s with
    | nil => simp [scanTokensAux] at h
    | cons c rest =>
      simp only [scanTokensAux, List.mem_cons] at h
      rcases h with h | h
      · have hk : (tokenStep prev (c :: rest)).1.2 = TKind.FUNCTION := by
          rw [← h]
        have := tokenStep_function_shape prev (c :: rest) hk
        have hv : (tokenStep prev (c :: rest)).1.1 = v := by
          rw [← h]
        rw [hv] at this
        exact this
      · exact ih _ _ v h

/-- C5 (amended): because `TOKEN_REGEX` is compiled with `re.IGNORECASE`,
the FUNCTION alternative matches dotted paths whose first two segments
begin with a letter of either case; a lowercase dotted path such as
`foo.bar` IS classified FUNCTION.  Every FUNCTION token value has the
shape letter·word*·dot·letter·(word|dot)*. -/
theorem function_token_shape_case_insensitive :
    (∀ (body v : String), (v, TKind.FUNCTION) ∈ get_tokens body →
      functionShape v.toList = true) ∧
    get_tokens "foo.bar" = [("foo.bar", TKind.FUNCTION)] := by
  constructor
  · intro body v h
    unfold get_tokens at h
    rw [List.mem_map] at h
    obtain ⟨⟨w, k⟩, hmem, heq⟩ := h
    simp only [Prod.mk.injEq] at heq
    obtain ⟨hw, hk⟩ := heq
    rw [hk] at hmem
    have := scanTokensAux_function_shape _ _ _ w hmem
    rw [← hw]
    simpa [String.toList] using this
  · decide

/-- C5 counterexample: the claim "a lowercase dotted path such as foo.bar
is never classified as FUNCTION" is false on the code — `re.IGNORECASE`
applies to the whole `TOKEN_REGEX`, FUNCTION pattern included. -/
theorem function_token_lowercase_counterexample :
    ("foo.bar", TKind.FUNCTION) ∈ get_tokens "foo.bar" := by decide

theorem function_token_shape_witness :
    functionShape "Table.AddColumn".toList = true ∧
    ("Table.AddColumn", TKind.FUNCTION) ∈ get_tokens "Table.AddColumn(x)" :=
  ⟨function_token_shape_case_insensitive.1 "Table.AddColumn(x)" "Table.AddColumn"
      (by decide),
    by decide⟩

/-- Python whitespace `\s` (ASCII portion). -/
def isPySpace (c : Char) : Bool :=
  c == ' ' || c == '\t' || c == '\n' || c == '\r' || c == '\x0b' || c == '\x0c'

/-- First alternative of `dep_regex` in `find_dependencies`:
`(\b[a-zA-Z_][a-zA-Z0-9_.]*)\s*\(` (case-sensitive, no IGNORECASE flag).
Returns the captured group 1 and the rest after the whole match.  The name
class contains neither whitespace nor parentheses, so the greedy run needs
no backtracking. -/
def depTryIdentCall (prev : Option Char) (s : List Char) : Option (List Char × List Char) :=
  if isBoundary prev s.head? then
    match s with
    | [] => none
    | c :: rest =>
      if c.isAlpha || c == '_' then
        match (rest.dropWhile fun x => isWordChar x || x == '.').dropWhile isPySpace with
        | '(' :: r3 => some (c :: rest.takeWhile (fun x => isWordChar x || x == '.'), r3)
        | _ => none
      else none
  else none

/-- Second alternative of `dep_regex`: `(#"[^"]+")\s*\(`; group 2 keeps the
quotes. -/
def depTryQuotedCall (s : List Char) : Option (List Char × List Char) :=
  match s with
  | '#' :: '"' :: rest =>
    if (rest.takeWhile (· != '"')).isEmpty then none
    else
      match rest.dropWhile (· != '"') with
      | '"' :: r2 =>
        match r2.dropWhile isPySpace with
        | '(' :: r3 => some ('#' :: '"' :: rest.takeWhile (· != '"') ++ ['"'], r3)
        | _ => none
      | _ => none
  | _ => none

/-- `dep_regex.finditer`: scan the body, collecting `(name, quoted?)` pairs
in order; on a match the scan resumes after the consumed opening
parenthesis. -/
def depScanAux : Nat → Option Char → List Char → List (List Char × Bool)
  | 0, _, _ => []
  | _ + 1, _, [] => []
  | n + 1, prev, c :: rest =>
    match depTryIdentCall prev (c :: rest) with
    | some (name, r) => (name, false) :: depScanAux n (some '(') r
    | none =>
      match depTryQuotedCall (c :: rest) with
      | some (name, r) => (name, true) :: depScanAux n (some '(') r
      | none => depScanAux n (some c) rest

/-- `builtin_func_regex` of `find_dependencies`:
`^[A-Z][a-zA-Z0-9_]*\.[A-Z][a-zA-Z0-9_.]*$`, case-sensitive and anchored
at both ends. -/
def isBuiltinFuncShape (s : List Char) : Bool :=
  match s with
  | [] => false
  | c :: rest =>
    c.isUpper &&
      (match rest.dropWhile isWordChar with
       | '.' :: (d :: tail2) => d.isUpper && tail2.all (fun x => isWordChar x || x == '.')
       | _ => false)

/-- Python string comparison (lexicographic on code points), as a Boolean
`a <= b`. -/
def lexLe : List Char → List Char → Bool
  | [], _ => true
  | _ :: _, [] => false
  | x :: xs, y :: ys => if x = y then lexLe xs ys else decide (x < y)

/-- The filter of `find_dependencies`: keep a captured name unless it is a
reserved keyword, a fixed data source, or (for an unquoted capture) of the
built-in `Library.Function` shape. -/
def depKeep (nq : List Char × Bool) : Bool :=
  !(M_KEYWORDS.contains nq.1) && !(M_DATA_SOURCES.contains nq.1) &&
    !(!nq.2 && isBuiltinFuncShape nq.1)

/-- `ExcelMCodeParser.find_dependencies`: captured names that pass the
filters, deduplicated (Python `set`) and sorted (Python `sorted`). -/
def find_dependencies (body : String) : List String :=
  ((List.insertionSort (fun a b => lexLe a b = true)
      (((depScanAux body.toList.length none body.toList).filter depKeep).map
        Prod.fst).dedup)).map List.asString

lemma lexLe_total : ∀ a b : List Char, lexLe a b = true ∨ lexLe b a = true := by
  intro a
  induction a with
  | nil => intro b; left; rfl
  | cons x xs ih =>
    intro b
    cases b with
    | nil => right; rfl
    | cons y ys =>
      by_cases hxy : x = y
      · subst hxy
        rcases ih ys with h | h
        · left; simp [lexLe, h]
        · right; simp [lexLe, h]
      · rcases lt_or_gt_of_ne hxy with h | h
        · left; simp [lexLe, hxy, h]
        · right
          have hyx : ¬ y = x := fun hc => hxy hc.symm
          simp [lexLe, hyx]
          exact h

lemma lexLe_trans :
    ∀ a b c : List Char, lexLe a b = true → lexLe b c = true → lexLe a c = true := by
  intro a
  induction a with
  | nil => intro b c _ _; rfl
  | cons x xs ih =>
    intro b c hab hbc
    cases b with
    | nil => simp [lexLe] at hab
    | cons y ys =>
      cases c with
      | nil => simp [lexLe] at hbc
      | cons z zs =>
        by_cases hxy : x = y <;> by_cases hyz : y = z
        · subst hxy hyz
          simp only [lexLe, if_pos rfl] at *
          exact ih ys zs hab hbc
        · subst hxy
          simp only [lexLe, if_pos rfl, if_neg hyz] at *
          exact hbc
        · subst hyz
          simp only [lexLe, if_pos rfl, if_neg hxy] at *
          exact hab
        · simp only [lexLe, if_neg hxy, if_neg hyz, decide_eq_true_eq] at hab hbc
          have hxz : x ≠ z := fun hc => absurd (hc ▸ hab) (by
            intro hlt
            exact absurd (hlt.trans hbc) (lt_irrefl z))
          simp only [lexLe, if_neg hxz, decide_eq_true_eq]
          exact hab.trans hbc

instance : IsTotal (List Char) (fun a b => lexLe a b = true) := ⟨lexLe_total⟩

instance : IsTrans (List Char) (fun a b => lexLe a b = true) := ⟨lexLe_trans⟩

lemma lexLe_iff_not_lex :
    ∀ a b : List Char, lexLe a b = true ↔ ¬ List.Lex (· < ·) b a := by
  intro a
  induction a with
  | nil =>
    intro b
    constructor
    · intro _ hlex
      cases hlex
    · intro _; rfl
  | cons x xs ih =>
    intro b
    cases b with
    | nil =>
      constructor
      · intro h; simp [lexLe] at h
      · intro h; exact absurd List.Lex.nil h
    | cons y ys =>
      by_cases hxy : x = y
      · subst hxy
        have hstep : lexLe (x :: xs) (x :: ys) = lexLe xs ys := by simp [lexLe]
        rw [hstep, ih ys]
        constructor
        · intro h hlex
          cases hlex with
          | cons htail => exact h htail
          | rel hrel => exact absurd hrel (lt_irrefl x)
        · intro h hlex
          exact h (List.Lex.cons hlex)
      · have hstep : lexLe (x :: xs) (y :: ys) = decide (x < y) := by simp [lexLe, hxy]
        rw [hstep]
        simp only [decide_eq_true_eq]
        constructor
        · intro hlt hlex
          cases hlex with
          | cons _ => exact hxy rfl
          | rel hrel => exact absurd (hrel.trans hlt) (lt_irrefl y)
        · intro h
          rcases lt_or_gt_of_ne hxy with hlt | hgt
          · exact hlt
          · exact absurd (List.Lex.rel (show y < x from hgt)) h

lemma lexLe_iff_le (a b : List Char) :
    lexLe a b = true ↔ List.asString a ≤ List.asString b := by
  rw [String.le_iff_toList_le, List.toList_asString, List.toList_asString,
    ← not_lt]
  exact lexLe_iff_not_lex a b

lemma depScanAux_quoted_head :
    ∀ (n : Nat) (prev : Option Char) (s name : List Char),
      (name, true) ∈ depScanAux n prev s → name.head? = some '#' := by
  intro n
  induction n with
  | zero => intro prev s name h; simp [depScanAux] at h
  | succ n ih =>
    intro prev s name h
    cases s with
    | nil => simp [depScanAux] at h
    | cons c rest =>
      rcases h1 : depTryIdentCall prev (c :: rest) with _ | ⟨nm, r⟩
      · rcases h2 : depTryQuotedCall (c :: rest) with _ | ⟨nm, r⟩
        · rw [show depScanAux (n + 1) prev (c :: rest) = depScanAux n (some c) rest from by
            simp [depScanAux, h1, h2]] at h
          exact ih _ _ name h
        · rw [show depScanAux (n + 1) prev (c :: rest) =
              (nm, true) :: depScanAux n (some '(') r from by simp [depScanAux, h1, h2]] at h
          rcases List.mem_cons.mp h with heq | hmem
          · simp only [Prod.mk.injEq, and_true] at heq
            rw [heq]
            unfold depTryQuotedCall at h2
            split at h2
            · split at h2
              · exact absurd h2 (by simp)
              · split at h2
                · split at h2
                  · simp only [Option.some.injEq, Prod.mk.injEq] at h2
                    rw [← h2.1]
                    rfl
                  · exact absurd h2 (by simp)
                · exact absurd h2 (by simp)
            · exact absurd h2 (by simp)
          · exact ih _ _ name hmem
      · rw [show depScanAux (n + 1) prev (c :: rest) =
            (nm, false) :: depScanAux n (some '(') r from by simp [depScanAux, h1]] at h
        rcases List.mem_cons.mp h with heq | hmem
        · simp at heq
        · exact ih _ _ name hmem

/-- C6: `find_dependencies` returns a deduplicated, lexicographically
sorted list; every returned name is neither a reserved keyword nor a fixed
data source, and a name of built-in `Library.Function` shape can only be
returned if it was captured in the quoted-identifier form (its value then
starts with `#`).  On the example body it returns exactly `["MyHelper"]`. -/
theorem find_dependencies_spec :
    find_dependencies "let x = Table.AddColumn(Source, \"c\", MyHelper(1)) in x" =
      ["MyHelper"] ∧
    (∀ body : String,
      List.Sorted (· ≤ ·) (find_dependencies body) ∧ (find_dependencies body).Nodup) ∧
    (∀ (body n : String), n ∈ find_dependencies body →
      n.toList ∉ M_KEYWORDS ∧ n.toList ∉ M_DATA_SOURCES ∧
        (isBuiltinFuncShape n.toList = true → n.toList.head? = some '#')) := by
  refine ⟨by decide, fun body => ⟨?_, ?_⟩, fun body n hmem => ?_⟩
  · unfold find_dependencies
    apply List.Pairwise.map
    · intro a b hab
      exact (lexLe_iff_le a b).mp hab
    · exact List.sorted_insertionSort _ _
  · unfold find_dependencies
    apply List.Nodup.map
    · intro a b hab
      exact List.asString_inj.mp hab
    · exact (List.perm_insertionSort _ _).nodup_iff.mpr (List.nodup_dedup _)
  · unfold find_dependencies at hmem
    rw [List.mem_map] at hmem
    obtain ⟨w, hw, heq⟩ := hmem
    rw [(List.perm_insertionSort _ _).mem_iff, List.mem_dedup, List.mem_map] at hw
    obtain ⟨⟨w', q⟩, hpair, hfst⟩ := hw
    rw [List.mem_filter] at hpair
    obtain ⟨hscan, hkeepEq⟩ := hpair
    unfold depKeep at hkeepEq
    simp only [Bool.and_eq_true, Bool.not_eq_true'] at hkeepEq
    obtain ⟨⟨hkw, hds⟩, hbuiltin⟩ := hkeepEq
    have htl : n.toList = w := by
      rw [← heq, List.toList_asString]
    rw [htl]
    simp only at hfst
    rw [← hfst]
    refine ⟨?_, ?_, ?_⟩
    · intro hc
      have hx : M_KEYWORDS.contains w' = true := List.elem_eq_true_of_mem hc
      rw [hx] at hkw
      exact absurd hkw (by simp)
    · intro hc
      have hx : M_DATA_SOURCES.contains w' = true := List.elem_eq_true_of_mem hc
      rw [hx] at hds
      exact absurd hds (by simp)
    · intro hshape
      rcases q with _ | _
      · rw [hshape] at hbuiltin
        simp at hbuiltin
      · exact depScanAux_quoted_head _ _ _ w' hscan

theorem find_dependencies_spec_witness :
    "MyHelper".toList ∉ M_KEYWORDS ∧ "MyHelper".toList ∉ M_DATA_SOURCES ∧
      (isBuiltinFuncShape "MyHelper".toList = true →
        "MyHelper".toList.head? = some '#') :=
  find_dependencies_spec.2.2 "MyHelper(1)" "MyHelper" (by decide)

/-- Does `=>` occur as a substring? (the lazy `.*?\s*=>` continuation can
absorb arbitrary text, so only occurrence matters). -/
def hasArrow : List Char → Bool
  | [] => false
  | '=' :: '>' :: _ => true
  | _ :: rest => hasArrow rest

/-- The continuation `(?:\s+as\s+.*?)?\s*=>` of the `find_parameters`
search regex, tested at a position just after the closing parenthesis.
The optional group needs at least one whitespace, the literal `as`
(case-sensitive), at least one whitespace, and then `=>` somewhere later
(the lazy `.*?` and the following `\s*` absorb anything in between); with
the group absent, `=>` must follow immediately after optional
whitespace. -/
def paramTailOk (t : List Char) : Bool :=
  (match t.dropWhile isPySpace with
   | 'a' :: 's' :: u =>
     !(t.takeWhile isPySpace).isEmpty &&
       ((u.head?.map isPySpace).getD false) && hasArrow u
   | _ => false)
  || (match t.dropWhile isPySpace with
      | '=' :: '>' :: _ => true
      | _ => false)

/-- The `\s*(.*?)\s*\)` part of the search regex after an opening
parenthesis: the leading `\s*` is greedy (and never profits from
backtracking, since shrinking it only moves whitespace into the lazy
group), the lazy group grows one character at a time, and the `\s*` before
`)` takes the maximal whitespace run (shrinking it would place a
whitespace character where `)` is required).  Returns group 1. -/
def paramTryContent (acc : List Char) (after : List Char) : Option (List Char) :=
  match
    (match after.dropWhile isPySpace with
     | ')' :: t => if paramTailOk t then some acc.reverse else none
     | _ => none) with
  | some content => some content
  | none =>
    match after with
    | [] => none
    | c :: rest => paramTryContent (c :: acc) rest

/-- `re.search` of `\(\s*(.*?)\s*\)(?:\s+as\s+.*?)?\s*=>` (DOTALL): the
leftmost position with a full match wins; returns group 1 there. -/
def searchParams : Nat → List Char → Option (List Char)
  | 0, _ => none
  | _ + 1, [] => none
  | n + 1, c :: rest =>
    if c == '(' then
      match paramTryContent [] (rest.dropWhile isPySpace) with
      | some content => some content
      | none => searchParams n rest
    else searchParams n rest

def find_params_search (body : List Char) : Option (List Char) :=
  searchParams body.length body

/-- `re.sub(comment_regex, '', ...)`: remove every non-overlapping match
of `//[^\n]*|/\*.*?\*/` (the same COMMENT pattern as the tokenizer's). -/
def stripComments : Nat → List Char → List Char
  | 0, _ => []
  | _ + 1, [] => []
  | n + 1, c :: rest =>
    match tryComment (c :: rest) with
    | some (_, r) => stripComments n r
    | none => c :: stripComments n rest

/-- Python `str.split(',')`: all parts, empty parts kept. -/
def splitOnComma : List Char → List (List Char)
  | [] => [[]]
  | ',' :: rest => [] :: splitOnComma rest
  | c :: rest =>
    match splitOnComma rest with
    | l :: ls => (c :: l) :: ls
    | [] => [[c]]

/-- Python `str.strip()` (whitespace on both ends). -/
def pyStrip (s : List Char) : List Char :=
  ((s.dropWhile isPySpace).reverse.dropWhile isPySpace).reverse

/-- The part after a parameter name: `(\s+as\s+(.*))?\s*$` of
`param_regex`.  `none` means the whole part failed to match (Python falls
back to the permissive placeholder); `some (isOpt, name, g4)` carries
group 1 (as a flag), group 2 and group 4. -/
def parseParamCore (t0 : List Char) (isOpt : Bool) :
    Option (Bool × List Char × Option (List Char)) :=
  match t0.takeWhile isWordChar with
  | [] => none
  | n0 :: nrest =>
    match (t0.dropWhile isWordChar).dropWhile isPySpace with
    | 'a' :: 's' :: u =>
      if !((t0.dropWhile isWordChar).takeWhile isPySpace).isEmpty &&
          ((u.head?.map isPySpace).getD false) then
        some (isOpt, n0 :: nrest, some (u.dropWhile isPySpace))
      else if (t0.dropWhile isWordChar).all isPySpace then
        some (isOpt, n0 :: nrest, none)
      else none
    | _ =>
      if (t0.dropWhile isWordChar).all isPySpace then
        some (isOpt, n0 :: nrest, none)
      else none

/-- `param_regex.match` on one comma-separated part:
`^\s*(optional\s+)?([a-zA-Z0-9_]+)(\s+as\s+(.*))?\s*$` (DOTALL).  If the
greedy `(optional\s+)?` group matches but the remainder then fails, the
engine backtracks and retries with the group absent. -/
def parseParamPart (part : List Char) : Option (Bool × List Char × Option (List Char)) :=
  match part.dropWhile isPySpace with
  | 'o' :: 'p' :: 't' :: 'i' :: 'o' :: 'n' :: 'a' :: 'l' :: u =>
    if (u.head?.map isPySpace).getD false then
      match parseParamCore (u.dropWhile isPySpace) true with
      | some res => some res
      | none => parseParamCore (part.dropWhile isPySpace) false
    else parseParamCore (part.dropWhile isPySpace) false
  | t0 => parseParamCore t0 false

/-- One parameter record of `find_parameters`: `{"name", "type",
"optional"}` (the `type` key is called `ptype` here because `type` is a
Lean keyword). -/
structure PyParam where
  name : String
  ptype : String
  optional : Bool
deriving DecidableEq, Repr

def mkParam (res : Option (Bool × List Char × Option (List Char)))
    (part : List Char) : PyParam :=
  match res with
  | some (isOpt, name, g4) =>
    { name := name.asString
      ptype :=
        match g4 with
        | some t => if t.isEmpty then "any" else (pyStrip t).asString
        | none => "any"
      optional := isOpt }
  | none => { name := (pyStrip part).asString, ptype := "unknown", optional := false }

/-- `ExcelMCodeParser.find_parameters`. -/
def find_parameters (body : String) : List PyParam :=
  match find_params_search body.toList with
  | none => []
  | some list_str =>
    if (pyStrip list_str).isEmpty then []
    else
      ((splitOnComma (stripComments list_str.length list_str)).filter
        (fun part => !(pyStrip part).isEmpty)).map
        (fun part => mkParam (parseParamPart part) part)

/-- C7: `find_parameters "(x as text, optional y) => x & y"` returns
exactly the two records `{name x, type text, not optional}` and
`{name y, type any, optional}`; and whenever the body contains no
parenthesized parameter list followed (possibly via `as <type>`) by `=>`
— i.e. the search regex finds no match, as on `"let a = 1 in a"` — the
result is the empty list. -/
theorem find_parameters_spec :
    find_parameters "(x as text, optional y) => x & y" =
      [⟨"x", "text", false⟩, ⟨"y", "any", true⟩] ∧
    find_parameters "let a = 1 in a" = [] ∧
    (∀ body : String, find_params_search body.toList = none → find_parameters body = []) := by
  refine ⟨by decide, by decide, fun body h => ?_⟩
  unfold find_parameters
  rw [h]

theorem find_parameters_spec_witness :
    find_params_search ("let a = 1 in a".toList) = none ∧
    find_parameters "let a = 1 in a" = [] :=
  ⟨by decide, find_parameters_spec.2.2 "let a = 1 in a" (by decide)⟩

/-- `re.fullmatch(r'[a-zA-Z_][a-zA-Z0-9_]*', s)`: a bare identifier. -/
def isBareIdent (s : List Char) : Bool :=
  match s with
  | [] => false
  | c :: rest => (c.isAlpha || c == '_') && rest.all isWordChar

/-- Python `str.strip(' "')`: spaces and double quotes from both ends. -/
def pyStripSpaceQuote (s : List Char) : List Char :=
  ((s.dropWhile fun c => c == ' ' || c == '"').reverse.dropWhile
    (fun c => c == ' ' || c == '"')).reverse

/-- `re.match(r'([a-zA-Z0-9_.]+)\s*\((.*)\)', arg, DOTALL)` of
`_find_ultimate_source`: the name run is maximal (its class contains
neither whitespace nor `(`), and the greedy `(.*)` runs to the last `)`
of the string; text after that `)` is unconstrained (`re.match` anchors
only the start).  Returns (group 1, group 2). -/
def matchCallShape (s : List Char) : Option (List Char × List Char) :=
  match s.takeWhile (fun c => isWordChar c || c == '.') with
  | [] => none
  | n0 :: nrest =>
    match ((s.dropWhile fun c => isWordChar c || c == '.').dropWhile isPySpace) with
    | '(' :: inner0 =>
      match inner0.reverse.dropWhile (· != ')') with
      | ')' :: revInner => some (n0 :: nrest, revInner.reverse)
      | _ => none
    | _ => none

/-- `ExcelMCodeParser._find_ultimate_source`: classify an argument string
as a (type, value) pair. -/
def findUltimateSource (arg0 : List Char) : String × List Char :=
  let arg := pyStrip arg0
  if arg.head? == some '"' && arg.getLast? == some '"' then
    ("Literal", (arg.drop 1).dropLast)
  else if arg.take 2 == ['#', '"'] && arg.getLast? == some '"' then
    ("Literal", (arg.drop 2).dropLast)
  else if isBareIdent arg then ("Variable", arg)
  else
    match matchCallShape arg with
    | some (_, inner) =>
      if isBareIdent (pyStrip inner) then ("Variable", pyStrip inner)
      else if (pyStrip inner).head? == some '"' then ("Literal", pyStripSpaceQuote inner)
      else ("Other", arg)
    | none => ("Other", arg)

/-- One record of `find_data_sources` (the Python dict keys `type`,
`full_argument`, `source_type`, `source_value`; `type` is called `dstype`
here because `type` is a Lean keyword). -/
structure DataSourceRec where
  dstype : String
  full_argument : String
  source_type : String
  source_value : String
deriving DecidableEq, Repr

/-- Skip whitespace tokens: OTHER tokens whose value `str.isspace()`. -/
def skipWsTokens : List (List Char × TKind) → List (List Char × TKind)
  | [] => []
  | (v, k) :: rest =>
    if k == TKind.OTHER && !v.isEmpty && v.all isPySpace then skipWsTokens rest
    else (v, k) :: rest

/-- Walk the tokens of the first argument: the parenthesis level starts at
1 after the opening `(`; the capture ends at the closing `)` that brings
the level to 0, or at a `,` at level 1.  Returns the argument's token
values and the remaining tokens starting AT the end token (the Python
loop sets `i = k` and re-examines that token). -/
def findArgEnd (level : Nat) : List (List Char × TKind) →
    Option (List (List Char) × List (List Char × TKind))
  | [] => none
  | (v, k) :: rest =>
    let level' := if v == ['('] then level + 1 else if v == [')'] then level - 1 else level
    if v == [')'] && level' == 0 then some ([], (v, k) :: rest)
    else if v == [','] && level' == 1 then some ([], (v, k) :: rest)
    else
      match findArgEnd level' rest with
      | some (vs, rem) => some (v :: vs, rem)
      | none => none

/-- The scanning loop of `find_data_sources` over the token list. -/
def dsScan : Nat → List (List Char × TKind) → List DataSourceRec
  | 0, _ => []
  | _ + 1, [] => []
  | n + 1, (v, kind) :: rest =>
    if kind == TKind.DATASOURCE then
      match skipWsTokens rest with
      | (vj, _) :: rest2 =>
        if vj == ['('] then
          match findArgEnd 1 rest2 with
          | some (argvs, rem) =>
            { dstype := v.asString
              full_argument := (pyStrip argvs.flatten).asString
              source_type := (findUltimateSource (pyStrip argvs.flatten)).1
              source_value := (findUltimateSource (pyStrip argvs.flatten)).2.asString } ::
              dsScan n rem
          | none => dsScan n rest
        else dsScan n rest
      | [] => dsScan n rest
    else dsScan n rest

/-- `ExcelMCodeParser.find_data_sources`. -/
def find_data_sources (body : String) : List DataSourceRec :=
  dsScan body.toList.length (scanTokensAux body.toList.length none body.toList)

lemma takeWhile_append_all {p : Char → Bool} :
    ∀ (xs ys : List Char), (∀ x ∈ xs, p x = true) →
      (xs ++ ys).takeWhile p = xs ++ ys.takeWhile p := by
  intro xs
  induction xs with
  | nil => intro ys _; rfl
  | cons x xs ih =>
    intro ys hall
    simp only [List.cons_append, List.takeWhile_cons, hall x (by simp)]
    simp [ih ys fun y hy => hall y (by simp [hy])]

lemma dropWhile_eq_self_of_all {p : Char → Bool} :
    ∀ s : List Char, (∀ c ∈ s, p c = false) → s.dropWhile p = s := by
  intro s h
  cases s with
  | nil => rfl
  | cons c rest => simp [List.dropWhile_cons, h c (by simp)]

lemma pyStrip_eq_self_of_all (s : List Char) (h : ∀ c ∈ s, isPySpace c = false) :
    pyStrip s = s := by
  unfold pyStrip
  rw [dropWhile_eq_self_of_all s h,
    dropWhile_eq_self_of_all s.reverse fun c hc => h c (List.mem_reverse.mp hc),
    List.reverse_reverse]

lemma isPySpace_false_of_isWordChar : ∀ c : Char, isWordChar c = true → isPySpace c = false := by
  intro c h
  by_contra hc
  rw [Bool.not_eq_false] at hc
  simp only [isPySpace, Bool.or_eq_true, beq_iff_eq] at hc
  rcases hc with (((((h1 | h1) | h1) | h1) | h1) | h1) <;> subst h1 <;>
    exact absurd h (by decide)

/-- C9: `find_data_sources` captures as `full_argument` the first
top-level argument of a data-source call — on
`Csv.Document(File.Contents(filePath))` the capture ends at the matching
closing parenthesis and on `Sql.Database(server, db)` at the comma at
parenthesis depth 1 — and for every argument of the shape
`name(inner)` with `inner` a bare identifier, `_find_ultimate_source`
reports type `Variable` with value `inner`. -/
theorem find_data_sources_first_argument :
    find_data_sources "Csv.Document(File.Contents(filePath))" =
      [⟨"Csv.Document", "File.Contents(filePath)", "Variable", "filePath"⟩] ∧
    find_data_sources "Sql.Database(server, db)" =
      [⟨"Sql.Database", "server", "Variable", "server"⟩] ∧
    (∀ (name inner : List Char), name ≠ [] →
      (∀ c ∈ name, (isWordChar c || c == '.') = true) →
      isBareIdent inner = true →
      findUltimateSource (name ++ '(' :: (inner ++ [')'])) = ("Variable", inner)) := by
  refine ⟨by decide, by decide, fun name inner hne hclass hbare => ?_⟩
  obtain ⟨n0, ns, rfl⟩ : ∃ n0 ns, name = n0 :: ns := by
    cases name with
    | nil => exact absurd rfl hne
    | cons a b => exact ⟨a, b, rfl⟩
  obtain ⟨i0, irest, rfl⟩ : ∃ i0 irest, inner = i0 :: irest := by
    cases inner with
    | nil => simp [isBareIdent] at hbare
    | cons a b => exact ⟨a, b, rfl⟩
  simp only [isBareIdent, Bool.and_eq_true, List.all_eq_true] at hbare
  obtain ⟨hi0, hirest⟩ := hbare
  have hi0w : isWordChar i0 = true := by
    rcases (Bool.or_eq_true _ _).mp hi0 with h | h
    · simp [isWordChar, h]
    · simp [isWordChar, h]
  have hinnerw : ∀ c ∈ i0 :: irest, isWordChar c = true := by
    intro c hc
    rcases List.mem_cons.mp hc with rfl | hc2
    · exact hi0w
    · exact hirest c hc2
  have hnospace : ∀ c ∈ (n0 :: ns) ++ '(' :: ((i0 :: irest) ++ [')']), isPySpace c = false := by
    intro c hc
    rcases List.mem_append.mp hc with hc1 | hc2
    · have := hclass c hc1
      rcases (Bool.or_eq_true _ _).mp this with h | h
      · exact isPySpace_false_of_isWordChar c h
      · rw [show c = '.' from by simpa using h]; decide
    · rcases List.mem_cons.mp hc2 with rfl | hc3
      · decide
      · rcases List.mem_append.mp hc3 with hc4 | hc5
        · exact isPySpace_false_of_isWordChar c (hinnerw c hc4)
        · rw [show c = ')' from by simpa using hc5]; decide
  have hn0 : (isWordChar n0 || n0 == '.') = true := hclass n0 (by simp)
  have hn0q : n0 ≠ '"' := by
    intro h; subst h; exact absurd hn0 (by decide)
  have hn0hash : n0 ≠ '#' := by
    intro h; subst h; exact absurd hn0 (by decide)
  simp only [findUltimateSource]
  rw [pyStrip_eq_self_of_all _ hnospace]
  have hc1 : (((n0 :: ns) ++ '(' :: ((i0 :: irest) ++ [')'])).head? == some '"') = false := by
    simp [hn0q]
  have hc2 : (((n0 :: ns) ++ '(' :: ((i0 :: irest) ++ [')'])).take 2 == ['#', '"']) = false := by
    cases ns with
    | nil => simp [List.take, hn0hash]
    | cons a b => simp [List.take, hn0hash]
  have hc3 : isBareIdent ((n0 :: ns) ++ '(' :: ((i0 :: irest) ++ [')'])) = false := by
    have hall : (ns ++ '(' :: ((i0 :: irest) ++ [')'])).all isWordChar = false := by
      rw [List.all_append]
      rw [show ('(' :: ((i0 :: irest) ++ [')'])).all isWordChar = false from by
        rw [List.all_cons, show isWordChar '(' = false from by decide, Bool.false_and]]
      rw [Bool.and_false]
    simp only [List.cons_append] at hall
    simp only [List.cons_append, isBareIdent, hall, Bool.and_false]
  have hclassfun : ∀ c ∈ n0 :: ns, ((fun c => isWordChar c || c == '.') c) = true := hclass
  have htw : ((n0 :: ns) ++ '(' :: ((i0 :: irest) ++ [')'])).takeWhile
      (fun c => isWordChar c || c == '.') = n0 :: ns := by
    rw [takeWhile_append_all _ _ hclassfun]
    simp [List.takeWhile_cons, isWordChar]
  have hdw : ((n0 :: ns) ++ '(' :: ((i0 :: irest) ++ [')'])).dropWhile
      (fun c => isWordChar c || c == '.') = '(' :: ((i0 :: irest) ++ [')']) := by
    rw [dropWhile_append_all _ _ hclassfun]
    simp [List.dropWhile_cons, isWordChar]
  have hmcs : matchCallShape ((n0 :: ns) ++ '(' :: ((i0 :: irest) ++ [')'])) =
      some (n0 :: ns, i0 :: irest) := by
    unfold matchCallShape
    rw [htw, hdw]
    have hdw2 : ('(' :: ((i0 :: irest) ++ [')'])).dropWhile isPySpace =
        '(' :: ((i0 :: irest) ++ [')']) := by
      simp [List.dropWhile_cons, isPySpace]
    rw [hdw2]
    simp [List.reverse_append]
  rw [hc1, hc2, hc3, hmcs]
  have hps : pyStrip (i0 :: irest) = i0 :: irest :=
    pyStrip_eq_self_of_all _ fun c hc => isPySpace_false_of_isWordChar c (hinnerw c hc)
  simp only [Bool.false_eq_true, if_false, hps]
  have hbare2 : isBareIdent (i0 :: irest) = true := by
    simp only [isBareIdent, hi0, Bool.true_and, List.all_eq_true]
    exact hirest
  simp [hbare2]

theorem find_data_sources_first_argument_witness :
    findUltimateSource ("File.Contents".toList ++ '(' :: ("filePath".toList ++ [')'])) =
      ("Variable", "filePath".toList) :=
  find_data_sources_first_argument.2.2 "File.Contents".toList "filePath".toList
    (by decide) (by decide) (by decide)

/-- The metadata consumed by the resolver: the `name` and `dependencies`
fields of `PowerQueryMetadata`. -/
structure MetaRec where
  name : List Char
  dependencies : List (List Char)
deriving DecidableEq, Repr

/-- The store's loaded in-memory index (`PQFileStore._index`): lowercased
name → metadata. -/
abbrev Store := List (List Char × MetaRec)

/-- `PQFileStore.get_metadata_by_name` on a loaded, fresh index:
`self._index.get(name.lower())`. -/
def get_metadata_by_name (st : Store) (n : List Char) : Option MetaRec :=
  match st.find? (fun kv => kv.1 == pyLower n) with
  | some kv => some kv.2
  | none => none

/-- The inner `for dep_name in meta.dependencies: dfs(dep_name)` loop of
pass 1, threading `resolved` and propagating errors and fuel
exhaustion. -/
def runDeps1
    (f : List Char → List (List Char) → Option (Except Unit (List (List Char)))) :
    List (List Char) → List (List Char) → Option (Except Unit (List (List Char)))
  | [], res => some (.ok res)
  | d :: ds, res =>
    match f d res with
    | some (.ok res') => runDeps1 f ds res'
    | other => other

/-- Pass 1 of `get_insertion_order` (the nested `dfs`): cycle detection
and computation of the `resolved` set.  Python's `resolved` is a set; it
is modelled as a list in reverse insertion order (the code only ever
tests membership).  `visiting` is the recursion stack, passed down and
implicitly restored on return.  `none` means out of fuel (never reached
from `get_insertion_order`); `.error ()` is `CircularDependencyError`. -/
def dfs1 (st : Store) : Nat → List Char → List (List Char) → List (List Char) →
    Option (Except Unit (List (List Char)))
  | 0, _, _, _ => none
  | n + 1, name, visiting, res =>
    if name ∈ res then some (.ok res)
    else if name ∈ visiting then some (.error ())
    else
      match get_metadata_by_name st name with
      | none => some (.ok res)
      | some meta =>
        match runDeps1 (fun d r => dfs1 st n d (name :: visiting) r)
            meta.dependencies res with
        | some (.ok res') => some (.ok (name :: res'))
        | other => other

/-- The `for name in names: if name not in resolved: dfs(name)` loops of
steps 3 and the try-block (both runs of pass 1). -/
def runNames1
    (f : List Char → List (List Char) → Option (Except Unit (List (List Char)))) :
    List (List Char) → List (List Char) → Option (Except Unit (List (List Char)))
  | [], res => some (.ok res)
  | nm :: rest, res =>
    if nm ∈ res then runNames1 f rest res
    else
      match f nm res with
      | some (.ok res') => runNames1 f rest res'
      | other => other

/-- The `if dep_name not in visited: dfs_for_order(dep_name)` loop of pass
2; also the shape of the final `for name in names` loop. -/
def runDeps2
    (f : List Char → List (List Char) → List (List Char) →
      Option (List (List Char) × List (List Char))) :
    List (List Char) → List (List Char) → List (List Char) →
    Option (List (List Char) × List (List Char))
  | [], vis, acc => some (vis, acc)
  | d :: ds, vis, acc =>
    if d ∈ vis then runDeps2 f ds vis acc
    else
      match f d vis acc with
      | some (vis', acc') => runDeps2 f ds vis' acc'
      | none => none

/-- Pass 2 (`dfs_for_order`): post-order traversal appending each found
name after its dependencies; `visited.add(name)` happens at entry, before
the lookup, so missing names are marked visited but never appended. -/
def dfs2 (st : Store) : Nat → List Char → List (List Char) → List (List Char) →
    Option (List (List Char) × List (List Char))
  | 0, _, _, _ => none
  | n + 1, name, visited, acc =>
    match get_metadata_by_name st name with
    | none => some (name :: visited, acc)
    | some meta =>
      match runDeps2 (fun d v a => dfs2 st n d v a) meta.dependencies
          (name :: visited) acc with
      | some (vis', acc') => some (vis', acc' ++ [name])
      | none => none

/-- Fuel bound for both passes: one more than the number of names that
can ever enter `visiting`/`visited` (the requested names and every name
appearing in a dependency list of the store). -/
def gioFuel (st : Store) (names : List (List Char)) : Nat :=
  (names ++ (st.map fun kv => kv.2.dependencies).flatten).length + 1

/-- `DependencyResolver.get_insertion_order`.  The Python method builds an
unused adjacency dict (not modelled), runs the cycle-check DFS over the
requested names (step 3), runs it again inside a try/except that re-raises
the caught `CircularDependencyError`, then runs the ordering DFS and
filters the ordered list by membership in `resolved`. -/
def get_insertion_order (st : Store) (names : List (List Char)) :
    Option (Except Unit (List (List Char))) :=
  match runNames1 (fun nm res => dfs1 st (gioFuel st names) nm [] res) names [] with
  | some (.ok res1) =>
    match runNames1 (fun nm res => dfs1 st (gioFuel st names) nm [] res) names res1 with
    | some (.ok res2) =>
      match runDeps2 (fun d v a => dfs2 st (gioFuel st names) d v a) names [] [] with
      | some (_, ordered) => some (.ok (ordered.filter fun x => x ∈ res2))
      | none => none
    | some (.error e) => some (.error e)
    | none => none
  | some (.error e) => some (.error e)
  | none => none

/-- A name resolvable in the store (lookup by lowercased name hits). -/
def foundIn (st : Store) (n : List Char) : Prop := get_metadata_by_name st n ≠ none

/-- The dependency list of a name (empty for missing names). -/
def depsOf (st : Store) (n : List Char) : List (List Char) :=
  match get_metadata_by_name st n with
  | some m => m.dependencies
  | none => []

/-- The dependency graph edge: `a` is found and declares `b`. -/
def Edge (st : Store) (a b : List Char) : Prop :=
  ∃ m, get_metadata_by_name st a = some m ∧ b ∈ m.dependencies

/-- Reachability from the requested names. -/
def ReachFrom (st : Store) (names : List (List Char)) (x : List Char) : Prop :=
  ∃ r ∈ names, Relation.ReflTransGen (Edge st) r x

/-- A dependency cycle reachable from the requested names. -/
def CycleReachable (st : Store) (names : List (List Char)) : Prop :=
  ∃ x, ReachFrom st names x ∧ Relation.TransGen (Edge st) x x

/-- The ghost invariant of pass 1's `resolved` set (listed newest first):
every member is found, is listed after all of its found dependencies, and
appears once. -/
def GoodRes (st : Store) : List (List Char) → Prop
  | [] => True
  | x :: older => foundIn st x ∧ (∀ d ∈ depsOf st x, d ∈ older ∨ ¬ foundIn st d) ∧
      x ∉ older ∧ GoodRes st older

/-- The ghost invariant of pass 2's `ordered_list`: every listed name is
found, and each of its found dependencies either precedes it or is a name
the current recursion stack (`grey`) or a later entry or the name itself —
in the latter three cases the dependency can reach the entry, which a
cycle-free run rules out. -/
def Acc2Inv (st : Store) (grey acc : List (List Char)) : Prop :=
  ∀ l1 x l2, acc = l1 ++ x :: l2 →
    foundIn st x ∧ ∀ d ∈ depsOf st x,
      d ∈ l1 ∨ ¬ foundIn st d ∨
        ((d ∈ grey ∨ d ∈ l2 ∨ d = x) ∧ Relation.TransGen (Edge st) d x)

/-- Every name that can ever enter a recursion stack of
`get_insertion_order`: the requested names and all declared dependency
names. -/
def depUniverse (st : Store) (names : List (List Char)) : Finset (List Char) :=
  (names ++ (st.map fun kv => kv.2.dependencies).flatten).toFinset

lemma mem_universe_of_dep {st : Store} {names : List (List Char)}
    {a : List Char} {m : MetaRec} (hm : get_metadata_by_name st a = some m) :
    ∀ d ∈ m.dependencies, d ∈ depUniverse st names := by
  intro d hd
  unfold get_metadata_by_name at hm
  rcases hfind : st.find? (fun kv => kv.1 == pyLower a) with _ | kv
  · rw [hfind] at hm; cases hm
  · rw [hfind] at hm
    have hkv : kv ∈ st := List.mem_of_find?_eq_some hfind
    have hm2 : kv.2 = m := by cases hm; rfl
    have hdl : m.dependencies ∈ st.map fun kv => kv.2.dependencies := by
      rw [← hm2]
      exact List.mem_map_of_mem _ hkv
    have : d ∈ (st.map fun kv => kv.2.dependencies).flatten :=
      List.mem_flatten.mpr ⟨m.dependencies, hdl, hd⟩
    exact List.mem_toFinset.mpr (List.mem_append.mpr (Or.inr this))

lemma mem_universe_of_req {st : Store} {names : List (List Char)}
    {nm : List Char} (h : nm ∈ names) : nm ∈ depUniverse st names :=
  List.mem_toFinset.mpr (List.mem_append.mpr (Or.inl h))

lemma universe_card_le (st : Store) (names : List (List Char)) :
    (depUniverse st names).card + 1 ≤ gioFuel st names := by
  have := List.toFinset_card_le (names ++ (st.map fun kv => kv.2.dependencies).flatten)
  simp only [gioFuel, depUniverse]
  omega

lemma measure_step {U : Finset (List Char)} {name : List Char}
    (visited : List (List Char)) (h1 : name ∈ U) (h2 : name ∉ visited) :
    (U.filter fun u => u ∉ (name :: visited)).card + 1 =
      (U.filter fun u => u ∉ visited).card := by
  have hset : (U.filter fun u => u ∉ (name :: visited)) =
      (U.filter fun u => u ∉ visited).erase name := by
    ext a
    simp only [Finset.mem_filter, Finset.mem_erase, List.mem_cons]
    constructor
    · rintro ⟨ha, hnot⟩
      push_neg at hnot
      exact ⟨hnot.1, ha, hnot.2⟩
    · rintro ⟨hne, ha, hnot⟩
      refine ⟨ha, ?_⟩
      push_neg
      exact ⟨hne, hnot⟩
  have hmem : name ∈ U.filter fun u => u ∉ visited := by
    simp only [Finset.mem_filter]
    exact ⟨h1, h2⟩
  rw [hset, Finset.card_erase_of_mem hmem]
  have hpos : 0 < (U.filter fun u => u ∉ visited).card :=
    Finset.card_pos.mpr ⟨name, hmem⟩
  omega

lemma measure_mono {U : Finset (List Char)} {A B : List (List Char)}
    (h : ∀ v ∈ A, v ∈ B) :
    (U.filter fun u => u ∉ B).card ≤ (U.filter fun u => u ∉ A).card := by
  apply Finset.card_le_card
  intro a ha
  simp only [Finset.mem_filter] at ha ⊢
  exact ⟨ha.1, fun hmem => ha.2 (h a hmem)⟩

lemma edge_of_dep {st : Store} {a d : List Char} {m : MetaRec}
    (hm : get_metadata_by_name st a = some m) (hd : d ∈ m.dependencies) :
    Edge st a d := ⟨m, hm, hd⟩

lemma found_of_get {st : Store} {a : List Char} {m : MetaRec}
    (hm : get_metadata_by_name st a = some m) : foundIn st a := by
  simp [foundIn, hm]

lemma depsOf_eq_of_get {st : Store} {a : List Char} {m : MetaRec}
    (hm : get_metadata_by_name st a = some m) : depsOf st a = m.dependencies := by
  simp [depsOf, hm]

lemma found_of_edge {st : Store} {a b : List Char} (h : Edge st a b) :
    foundIn st a := by
  obtain ⟨m, hm, _⟩ := h
  exact found_of_get hm

lemma good_found {st : Store} : ∀ {res : List (List Char)}, GoodRes st res →
    ∀ x ∈ res, foundIn st x := by
  intro res
  induction res with
  | nil => intro _ x hx; cases hx
  | cons hd older ih =>
    rintro ⟨hf, _, _, hg⟩ x hx
    rcases List.mem_cons.mp hx with h | h
    · rw [h]; exact hf
    · exact ih hg x h

lemma good_closed {st : Store} : ∀ {res : List (List Char)}, GoodRes st res →
    ∀ z ∈ res, ∀ w, Edge st z w → foundIn st w → w ∈ res := by
  intro res
  induction res with
  | nil => intro _ z hz; cases hz
  | cons hd older ih =>
    rintro ⟨hf, hdeps, hno, hg⟩ z hz w hzw hw
    rcases List.mem_cons.mp hz with h | h
    · obtain ⟨m, hm, hmem⟩ := hzw
      rw [h] at hm
      have : w ∈ depsOf st hd := by rw [depsOf_eq_of_get hm]; exact hmem
      rcases hdeps w this with h2 | h2
      · exact List.mem_cons_of_mem _ h2
      · exact absurd hw h2
    · exact List.mem_cons_of_mem _ (ih hg z h w hzw hw)

lemma good_reach_mem {st : Store} {res : List (List Char)} (hg : GoodRes st res)
    {x y : List Char} (hx : x ∈ res)
    (hr : Relation.ReflTransGen (Edge st) x y) (hy : foundIn st y) : y ∈ res := by
  induction hr with
  | refl => exact hx
  | tail h1 h2 ih =>
    rename_i m w
    exact good_closed hg m (ih (found_of_edge h2)) w h2 hy

lemma good_no_cycle {st : Store} : ∀ {res : List (List Char)}, GoodRes st res →
    ∀ x ∈ res, ¬ Relation.TransGen (Edge st) x x := by
  intro res
  induction res with
  | nil => intro _ x hx; cases hx
  | cons hd older ih =>
    rintro ⟨hf, hdeps, hno, hg⟩ x hx hcyc
    rcases List.mem_cons.mp hx with h | h
    · subst h
      obtain ⟨b, hxb, hbx⟩ := Relation.TransGen.head'_iff.mp hcyc
      have hbdep : b ∈ depsOf st x := by
        obtain ⟨m, hm, hmem⟩ := hxb
        rw [depsOf_eq_of_get hm]; exact hmem
      have hbfound : foundIn st b := by
        rcases Relation.ReflTransGen.cases_head hbx with heq | ⟨c, h3, _⟩
        · rw [heq]; exact hf
        · exact found_of_edge h3
      rcases hdeps b hbdep with hb | hb
      · exact hno (good_reach_mem hg hb hbx hf)
      · exact hb hbfound
    · exact ih hg x h hcyc

lemma dfs1_spec (st : Store) (U : Finset (List Char))
    (hU : ∀ a m, get_metadata_by_name st a = some m → ∀ d ∈ m.dependencies, d ∈ U) :
    ∀ fuel name visiting res,
      (U.filter fun u => u ∉ visiting).card + 1 ≤ fuel →
      name ∈ U →
      GoodRes st res →
      ∃ out, dfs1 st fuel name visiting res = some out ∧
        ∀ res2, out = Except.ok res2 →
          GoodRes st res2 ∧ (∃ pre, res2 = pre ++ res) ∧
          (name ∈ res2 ∨ ¬ foundIn st name) ∧
          (∀ x ∈ res2, x ∈ res ∨
            (Relation.ReflTransGen (Edge st) name x ∧ x ∉ visiting)) := by
  intro fuel
  induction fuel with
  | zero =>
    intro name visiting res hfuel
    exact absurd hfuel (by omega)
  | succ n ih =>
    intro name visiting res hfuel hname hres
    by_cases h1 : name ∈ res
    · refine ⟨Except.ok res, by simp [dfs1, h1], ?_⟩
      intro res2 h
      cases h
      exact ⟨hres, ⟨[], rfl⟩, Or.inl h1, fun x hx => Or.inl hx⟩
    · by_cases h2 : name ∈ visiting
      · refine ⟨Except.error (), by simp [dfs1, h1, h2], ?_⟩
        intro res2 h
        cases h
      · rcases hm : get_metadata_by_name st name with _ | meta
        · refine ⟨Except.ok res, by simp [dfs1, h1, h2, hm], ?_⟩
          intro res2 h
          cases h
          exact ⟨hres, ⟨[], rfl⟩, Or.inr (by simp [foundIn, hm]),
            fun x hx => Or.inl hx⟩
        · have hfuelc : (U.filter fun u => u ∉ (name :: visiting)).card + 1 ≤ n := by
            have := measure_step visiting hname h2
            omega
          have key : ∀ ds : List (List Char), (∀ d ∈ ds, d ∈ U ∧ Edge st name d) →
              ∀ res1, GoodRes st res1 →
              (∀ x ∈ res1, x ∈ res ∨
                (Relation.ReflTransGen (Edge st) name x ∧ x ∉ (name :: visiting))) →
              ∃ out, runDeps1 (fun d r => dfs1 st n d (name :: visiting) r) ds res1 =
                  some out ∧
                ∀ res2, out = Except.ok res2 →
                  GoodRes st res2 ∧ (∃ pre, res2 = pre ++ res1) ∧
                  (∀ d ∈ ds, d ∈ res2 ∨ ¬ foundIn st d) ∧
                  (∀ x ∈ res2, x ∈ res ∨
                    (Relation.ReflTransGen (Edge st) name x ∧
                      x ∉ (name :: visiting))) := by
            intro ds
            induction ds with
            | nil =>
              intro _ res1 hg hreach
              refine ⟨Except.ok res1, rfl, ?_⟩
              intro res2 h
              cases h
              exact ⟨hg, ⟨[], rfl⟩, by simp, hreach⟩
            | cons d ds ihds =>
              intro hds res1 hg hreach
              obtain ⟨hdU, hdE⟩ := hds d (List.mem_cons_self _ _)
              obtain ⟨out1, heq1, hok1⟩ := ih d (name :: visiting) res1 hfuelc hdU hg
              rcases out1 with e | res1'
              · refine ⟨Except.error e, ?_, ?_⟩
                · simp [runDeps1, heq1]
                · intro res2 h
                  cases h
              · obtain ⟨hg', ⟨pre', hpre'⟩, hdmem, hreach'⟩ := hok1 res1' rfl
                have hreach1 : ∀ x ∈ res1', x ∈ res ∨
                    (Relation.ReflTransGen (Edge st) name x ∧
                      x ∉ (name :: visiting)) := by
                  intro x hx
                  rcases hreach' x hx with hx1 | ⟨hx1, hx2⟩
                  · exact hreach x hx1
                  · exact Or.inr ⟨Relation.ReflTransGen.head hdE hx1, hx2⟩
                obtain ⟨out2, heq2, hok2⟩ :=
                  ihds (fun d hd => hds d (List.mem_cons_of_mem _ hd)) res1' hg' hreach1
                refine ⟨out2, ?_, ?_⟩
                · simp [runDeps1, heq1, heq2]
                · intro res2 h
                  obtain ⟨hg2, ⟨pre2, hpre2⟩, hds2, hreach2⟩ := hok2 res2 h
                  refine ⟨hg2, ⟨pre2 ++ pre',
                    by rw [hpre2, hpre', List.append_assoc]⟩, ?_, hreach2⟩
                  intro d' hd'
                  rcases List.mem_cons.mp hd' with h' | h'
                  · subst h'
                    rcases hdmem with hmem | hnf
                    · exact Or.inl (by rw [hpre2]; exact List.mem_append_right _ hmem)
                    · exact Or.inr hnf
                  · exact hds2 d' h'
          obtain ⟨out, heqloop, hok⟩ := key meta.dependencies
            (fun d hd => ⟨hU name meta hm d hd, edge_of_dep hm hd⟩) res hres
            (fun x hx => Or.inl hx)
          rcases out with e | res'
          · refine ⟨Except.error e, ?_, ?_⟩
            · simp only [dfs1]
              rw [if_neg h1, if_neg h2, hm]
              simp [heqloop]
            · intro res2 h
              cases h
          · refine ⟨Except.ok (name :: res'), ?_, ?_⟩
            · simp only [dfs1]
              rw [if_neg h1, if_neg h2, hm]
              simp [heqloop]
            · intro res2 h
              cases h
              obtain ⟨hg', ⟨pre', hpre'⟩, hdmem, hreach'⟩ := hok res' rfl
              have hnmem : name ∉ res' := by
                intro hmem
                rcases hreach' name hmem with h' | ⟨_, h'⟩
                · exact h1 h'
                · exact h' (List.mem_cons_self _ _)
              refine ⟨⟨found_of_get hm, ?_, hnmem, hg'⟩,
                ⟨name :: pre', by rw [hpre']; rfl⟩,
                Or.inl (List.mem_cons_self _ _), ?_⟩
              · intro d hd
                rw [depsOf_eq_of_get hm] at hd
                exact hdmem d hd
              · intro x hx
                rcases List.mem_cons.mp hx with h' | h'
                · subst h'
                  exact Or.inr ⟨Relation.ReflTransGen.refl, h2⟩
                · rcases hreach' x h' with h'' | ⟨ha, hb⟩
                  · exact Or.inl h''
                  · exact Or.inr ⟨ha, fun hc => hb (List.mem_cons_of_mem _ hc)⟩

lemma filter_nil_measure (U : Finset (List Char)) :
    (U.filter fun u => u ∉ ([] : List (List Char))).card = U.card := by
  congr 1
  apply Finset.filter_true_of_mem
  intro x _
  simp

lemma runNames1_spec (st : Store) (U : Finset (List Char))
    (hU : ∀ a m, get_metadata_by_name st a = some m → ∀ d ∈ m.dependencies, d ∈ U)
    (fuel : Nat) (hfuel : U.card + 1 ≤ fuel) :
    ∀ nms res, (∀ nm ∈ nms, nm ∈ U) → GoodRes st res →
      ∃ out, runNames1 (fun nm r => dfs1 st fuel nm [] r) nms res = some out ∧
        ∀ res2, out = Except.ok res2 →
          GoodRes st res2 ∧ (∃ pre, res2 = pre ++ res) ∧
          (∀ nm ∈ nms, nm ∈ res2 ∨ ¬ foundIn st nm) ∧
          (∀ x ∈ res2, x ∈ res ∨
            ∃ r ∈ nms, Relation.ReflTransGen (Edge st) r x) := by
  have hfuel0 : (U.filter fun u => u ∉ ([] : List (List Char))).card + 1 ≤ fuel := by
    rw [filter_nil_measure]; exact hfuel
  intro nms
  induction nms with
  | nil =>
    intro res _ hg
    refine ⟨Except.ok res, rfl, ?_⟩
    intro res2 h
    cases h
    exact ⟨hg, ⟨[], rfl⟩, by simp, fun x hx => Or.inl hx⟩
  | cons nm rest ihn =>
    intro res hnms hg
    by_cases hmem : nm ∈ res
    · obtain ⟨out, heq, hok⟩ := ihn res (fun a ha => hnms a (List.mem_cons_of_mem _ ha)) hg
      refine ⟨out, by simp [runNames1, hmem, heq], ?_⟩
      intro res2 h
      obtain ⟨hg2, ⟨pre2, hpre2⟩, hrest, hreach⟩ := hok res2 h
      refine ⟨hg2, ⟨pre2, hpre2⟩, ?_, ?_⟩
      · intro a ha
        rcases List.mem_cons.mp ha with h' | h'
        · subst h'
          exact Or.inl (by rw [hpre2]; exact List.mem_append_right _ hmem)
        · exact hrest a h'
      · intro x hx
        rcases hreach x hx with h' | ⟨r, hr, hrt⟩
        · exact Or.inl h'
        · exact Or.inr ⟨r, List.mem_cons_of_mem _ hr, hrt⟩
    · obtain ⟨out1, heq1, hok1⟩ := dfs1_spec st U hU fuel nm [] res hfuel0
        (hnms nm (List.mem_cons_self _ _)) hg
      rcases out1 with e | res1
      · refine ⟨Except.error e, by simp [runNames1, hmem, heq1], ?_⟩
        intro res2 h
        cases h
      · obtain ⟨hg1, ⟨pre1, hpre1⟩, hnm1, hreach1⟩ := hok1 res1 rfl
        obtain ⟨out2, heq2, hok2⟩ := ihn res1
          (fun a ha => hnms a (List.mem_cons_of_mem _ ha)) hg1
        refine ⟨out2, by simp [runNames1, hmem, heq1, heq2], ?_⟩
        intro res2 h
        obtain ⟨hg2, ⟨pre2, hpre2⟩, hrest, hreach2⟩ := hok2 res2 h
        refine ⟨hg2, ⟨pre2 ++ pre1, by rw [hpre2, hpre1, List.append_assoc]⟩, ?_, ?_⟩
        · intro a ha
          rcases List.mem_cons.mp ha with h' | h'
          · subst h'
            rcases hnm1 with h'' | h''
            · exact Or.inl (by rw [hpre2]; exact List.mem_append_right _ h'')
            · exact Or.inr h''
          · exact hrest a h'
        · intro x hx
          rcases hreach2 x hx with h' | ⟨r, hr, hrt⟩
          · rcases hreach1 x h' with h'' | ⟨h'', _⟩
            · exact Or.inl h''
            · exact Or.inr ⟨nm, List.mem_cons_self _ _, h''⟩
          · exact Or.inr ⟨r, List.mem_cons_of_mem _ hr, hrt⟩

lemma dfs1_ok (st : Store) (U : Finset (List Char))
    (hU : ∀ a m, get_metadata_by_name st a = some m → ∀ d ∈ m.dependencies, d ∈ U)
    (P : List Char → Prop)
    (hPc : ∀ a b, P a → Edge st a b → P b)
    (hPa : ∀ x, P x → ¬ Relation.TransGen (Edge st) x x) :
    ∀ fuel name visiting res,
      (U.filter fun u => u ∉ visiting).card + 1 ≤ fuel →
      name ∈ U → GoodRes st res → P name →
      (∀ g ∈ visiting, Relation.TransGen (Edge st) g name) →
      ∃ res', dfs1 st fuel name visiting res = some (Except.ok res') := by
  intro fuel
  induction fuel with
  | zero =>
    intro name visiting res hfuel
    exact absurd hfuel (by omega)
  | succ n ih =>
    intro name visiting res hfuel hname hres hP hvis
    by_cases h1 : name ∈ res
    · exact ⟨res, by simp [dfs1, h1]⟩
    · have h2 : name ∉ visiting := fun hmem => hPa name hP (hvis name hmem)
      rcases hm : get_metadata_by_name st name with _ | meta
      · exact ⟨res, by simp [dfs1, h1, h2, hm]⟩
      · have hfuelc : (U.filter fun u => u ∉ (name :: visiting)).card + 1 ≤ n := by
          have := measure_step visiting hname h2
          omega
        have key : ∀ ds : List (List Char), (∀ d ∈ ds, d ∈ U ∧ Edge st name d) →
            ∀ res1, GoodRes st res1 →
            ∃ res1', runDeps1 (fun d r => dfs1 st n d (name :: visiting) r) ds res1 =
              some (Except.ok res1') ∧ GoodRes st res1' := by
          intro ds
          induction ds with
          | nil =>
            intro _ res1 hg
            exact ⟨res1, rfl, hg⟩
          | cons d ds ihds =>
            intro hds res1 hg
            obtain ⟨hdU, hdE⟩ := hds d (List.mem_cons_self _ _)
            have hvisd : ∀ g ∈ name :: visiting, Relation.TransGen (Edge st) g d := by
              intro g hgmem
              rcases List.mem_cons.mp hgmem with h | h
              · subst h; exact Relation.TransGen.single hdE
              · exact Relation.TransGen.tail (hvis g h) hdE
            obtain ⟨res1', heq1⟩ :=
              ih d (name :: visiting) res1 hfuelc hdU hg (hPc _ _ hP hdE) hvisd
            obtain ⟨out, heqs, hoks⟩ :=
              dfs1_spec st U hU n d (name :: visiting) res1 hfuelc hdU hg
            rw [heq1] at heqs
            cases heqs
            obtain ⟨hg', _, _, _⟩ := hoks res1' rfl
            obtain ⟨res2', heq2, hg2⟩ :=
              ihds (fun d hd => hds d (List.mem_cons_of_mem _ hd)) res1' hg'
            exact ⟨res2', by simp [runDeps1, heq1, heq2], hg2⟩
        obtain ⟨res', heqloop, _⟩ := key meta.dependencies
          (fun d hd => ⟨hU name meta hm d hd, edge_of_dep hm hd⟩) res hres
        refine ⟨name :: res', ?_⟩
        simp only [dfs1]
        rw [if_neg h1, if_neg h2, hm]
        simp [heqloop]

lemma runNames1_ok (st : Store) (U : Finset (List Char))
    (hU : ∀ a m, get_metadata_by_name st a = some m → ∀ d ∈ m.dependencies, d ∈ U)
    (P : List Char → Prop)
    (hPc : ∀ a b, P a → Edge st a b → P b)
    (hPa : ∀ x, P x → ¬ Relation.TransGen (Edge st) x x)
    (fuel : Nat) (hfuel : U.card + 1 ≤ fuel) :
    ∀ nms res, (∀ nm ∈ nms, nm ∈ U ∧ P nm) → GoodRes st res →
      ∃ res2, runNames1 (fun nm r => dfs1 st fuel nm [] r) nms res =
        some (Except.ok res2) := by
  have hfuel0 : (U.filter fun u => u ∉ ([] : List (List Char))).card + 1 ≤ fuel := by
    rw [filter_nil_measure]; exact hfuel
  intro nms
  induction nms with
  | nil =>
    intro res _ _
    exact ⟨res, rfl⟩
  | cons nm rest ihn =>
    intro res hnms hg
    by_cases hmem : nm ∈ res
    · obtain ⟨res2, heq⟩ := ihn res (fun a ha => hnms a (List.mem_cons_of_mem _ ha)) hg
      exact ⟨res2, by simp [runNames1, hmem, heq]⟩
    · obtain ⟨hnmU, hnmP⟩ := hnms nm (List.mem_cons_self _ _)
      obtain ⟨res1, heq1⟩ := dfs1_ok st U hU P hPc hPa fuel nm [] res hfuel0 hnmU hg hnmP
        (by intro g hgmem; cases hgmem)
      obtain ⟨out, heqs, hoks⟩ := dfs1_spec st U hU fuel nm [] res hfuel0 hnmU hg
      rw [heq1] at heqs
      cases heqs
      obtain ⟨hg1, _, _, _⟩ := hoks res1 rfl
      obtain ⟨res2, heq2⟩ := ihn res1 (fun a ha => hnms a (List.mem_cons_of_mem _ ha)) hg1
      exact ⟨res2, by simp [runNames1, hmem, heq1, heq2]⟩

lemma edge_of_depsOf {st : Store} {a d : List Char} (hf : foundIn st a)
    (hd : d ∈ depsOf st a) : Edge st a d := by
  rcases hm : get_metadata_by_name st a with _ | m
  · exact absurd hm hf
  · rw [depsOf_eq_of_get hm] at hd
    exact ⟨m, hm, hd⟩

lemma Acc2Inv_mono_grey {st : Store} {g1 g2 acc : List (List Char)}
    (hsub : ∀ x ∈ g1, x ∈ g2) (h : Acc2Inv st g1 acc) : Acc2Inv st g2 acc := by
  intro l1 x l2 heq
  obtain ⟨hf, hd⟩ := h l1 x l2 heq
  refine ⟨hf, ?_⟩
  intro d hdd
  rcases hd d hdd with h1 | h1 | ⟨h1, h2⟩
  · exact Or.inl h1
  · exact Or.inr (Or.inl h1)
  · refine Or.inr (Or.inr ⟨?_, h2⟩)
    rcases h1 with h3 | h3 | h3
    · exact Or.inl (hsub d h3)
    · exact Or.inr (Or.inl h3)
    · exact Or.inr (Or.inr h3)

lemma append_singleton_split {α : Type} :
    ∀ (acc l1 : List α) (x nm : α) (l2 : List α),
      acc ++ [nm] = l1 ++ x :: l2 →
      (l2 = [] ∧ x = nm ∧ l1 = acc) ∨
        ∃ l2a, l2 = l2a ++ [nm] ∧ acc = l1 ++ x :: l2a := by
  intro acc
  induction acc with
  | nil =>
    intro l1 x nm l2 h
    rcases l1 with _ | ⟨b, l1a⟩
    · simp only [List.nil_append] at h
      injection h with h1 h2
      exact Or.inl ⟨h2.symm, h1.symm, rfl⟩
    · simp only [List.nil_append, List.cons_append] at h
      injection h with h1 h2
      simp at h2
  | cons a acc2 ih =>
    intro l1 x nm l2 h
    simp only [List.cons_append] at h
    rcases l1 with _ | ⟨b, l1a⟩
    · simp only [List.nil_append] at h
      injection h with h1 h2
      exact Or.inr ⟨acc2, h2.symm, by simp [h1]⟩
    · simp only [List.cons_append] at h
      injection h with h1 h2
      rcases ih l1a x nm l2 h2 with ⟨hl2, hx, hl1⟩ | ⟨l2a, ha, hb⟩
      · exact Or.inl ⟨hl2, hx, by rw [← h1, hl1]⟩
      · exact Or.inr ⟨l2a, ha, by simp [h1, hb]⟩

lemma Acc2Inv_append {st : Store} {grey acc : List (List Char)} {name : List Char}
    (h : Acc2Inv st (name :: grey) acc)
    (hgd : ∀ g ∈ grey, Relation.TransGen (Edge st) g name)
    (hfound : foundIn st name)
    (hdeps : ∀ d ∈ depsOf st name, d ∈ acc ∨ ¬ foundIn st d ∨ d ∈ name :: grey) :
    Acc2Inv st grey (acc ++ [name]) := by
  intro l1 x l2 heq
  rcases append_singleton_split acc l1 x name l2 heq with
    ⟨hl2, hx, hl1⟩ | ⟨l2a, hl2, hacc⟩
  · subst hx
    subst hl1 hl2
    refine ⟨hfound, ?_⟩
    intro d hd
    rcases hdeps d hd with h1 | h1 | h1
    · exact Or.inl h1
    · exact Or.inr (Or.inl h1)
    · have hTrans : Relation.TransGen (Edge st) d x := by
        rcases List.mem_cons.mp h1 with h2 | h2
        · subst h2
          exact Relation.TransGen.single (edge_of_depsOf hfound hd)
        · exact hgd d h2
      rcases List.mem_cons.mp h1 with h2 | h2
      · exact Or.inr (Or.inr ⟨Or.inr (Or.inr h2), hTrans⟩)
      · exact Or.inr (Or.inr ⟨Or.inl h2, hTrans⟩)
  · subst hl2
    obtain ⟨hf, hd⟩ := h l1 x l2a hacc
    refine ⟨hf, ?_⟩
    intro d hdd
    rcases hd d hdd with h1 | h1 | ⟨h1, h2⟩
    · exact Or.inl h1
    · exact Or.inr (Or.inl h1)
    · refine Or.inr (Or.inr ⟨?_, h2⟩)
      rcases h1 with h3 | h3 | h3
      · rcases List.mem_cons.mp h3 with h4 | h4
        · subst h4
          exact Or.inr (Or.inl (List.mem_append_right l2a (List.mem_singleton.mpr rfl)))
        · exact Or.inl h4
      · exact Or.inr (Or.inl (List.mem_append_left _ h3))
      · exact Or.inr (Or.inr h3)

lemma dfs2_spec (st : Store) (U : Finset (List Char))
    (hU : ∀ a m, get_metadata_by_name st a = some m → ∀ d ∈ m.dependencies, d ∈ U) :
    ∀ fuel name visited acc grey,
      (U.filter fun u => u ∉ visited).card + 1 ≤ fuel →
      name ∈ U → name ∉ visited →
      (∀ g ∈ grey, Relation.TransGen (Edge st) g name) →
      (∀ v ∈ visited, v ∈ acc ∨ v ∈ grey ∨ ¬ foundIn st v) →
      (∀ x ∈ acc, x ∈ visited) →
      (∀ x ∈ acc, ∀ d ∈ depsOf st x, d ∈ visited) →
      Acc2Inv st grey acc →
      ∃ vis2 acc2,
        dfs2 st fuel name visited acc = some (vis2, acc2) ∧
        name ∈ vis2 ∧ (∀ v ∈ visited, v ∈ vis2) ∧
        (∃ post, acc2 = acc ++ post) ∧
        (foundIn st name → name ∈ acc2) ∧
        (∀ v ∈ vis2, v ∈ visited ∨ Relation.ReflTransGen (Edge st) name v) ∧
        (∀ v ∈ vis2, v ∈ acc2 ∨ v ∈ grey ∨ ¬ foundIn st v) ∧
        (∀ x ∈ acc2, x ∈ vis2) ∧
        (∀ x ∈ acc2, ∀ d ∈ depsOf st x, d ∈ vis2) ∧
        Acc2Inv st grey acc2 := by
  intro fuel
  induction fuel with
  | zero =>
    intro name visited acc grey hfuel
    exact absurd hfuel (by omega)
  | succ n ih =>
    intro name visited acc grey hfuel hname hnv hgd hvis haccv hclo hinv
    rcases hm : get_metadata_by_name st name with _ | meta
    · refine ⟨name :: visited, acc, by simp [dfs2, hm], List.mem_cons_self _ _,
        fun v hv => List.mem_cons_of_mem _ hv, ⟨[], by simp⟩,
        fun hf => absurd hm hf, ?_, ?_, fun x hx => List.mem_cons_of_mem _ (haccv x hx),
        fun x hx d hd => List.mem_cons_of_mem _ (hclo x hx d hd), hinv⟩
      · intro v hv
        rcases List.mem_cons.mp hv with h | h
        · exact Or.inr (h ▸ Relation.ReflTransGen.refl)
        · exact Or.inl h
      · intro v hv
        rcases List.mem_cons.mp hv with h | h
        · exact Or.inr (Or.inr (by rw [h]; simp [foundIn, hm]))
        · exact hvis v h
    · have hmeas0 : (U.filter fun u => u ∉ (name :: visited)).card + 1 ≤ n := by
        have := measure_step visited hname hnv
        omega
      have key : ∀ ds : List (List Char), (∀ d ∈ ds, d ∈ U ∧ Edge st name d) →
          ∀ vis acc2,
            (U.filter fun u => u ∉ vis).card + 1 ≤ n →
            (∀ v ∈ vis, v ∈ acc2 ∨ v ∈ name :: grey ∨ ¬ foundIn st v) →
            (∀ x ∈ acc2, x ∈ vis) →
            (∀ x ∈ acc2, ∀ d ∈ depsOf st x, d ∈ vis) →
            Acc2Inv st (name :: grey) acc2 →
            ∃ visF accF,
              runDeps2 (fun d v a => dfs2 st n d v a) ds vis acc2 = some (visF, accF) ∧
              (∀ v ∈ vis, v ∈ visF) ∧ (∃ post, accF = acc2 ++ post) ∧
              (∀ d ∈ ds, d ∈ visF) ∧
              (∀ v ∈ visF, v ∈ vis ∨ ∃ d ∈ ds, Relation.ReflTransGen (Edge st) d v) ∧
              (∀ v ∈ visF, v ∈ accF ∨ v ∈ name :: grey ∨ ¬ foundIn st v) ∧
              (∀ x ∈ accF, x ∈ visF) ∧
              (∀ x ∈ accF, ∀ dd ∈ depsOf st x, dd ∈ visF) ∧
              Acc2Inv st (name :: grey) accF := by
        intro ds
        induction ds with
        | nil =>
          intro _ vis acc2 hmeas hvisI haccvI hcloI hinvI
          exact ⟨vis, acc2, rfl, fun v hv => hv, ⟨[], by simp⟩, by simp,
            fun v hv => Or.inl hv, hvisI, haccvI, hcloI, hinvI⟩
        | cons d ds ihds =>
          intro hds vis acc2 hmeas hvisI haccvI hcloI hinvI
          obtain ⟨hdU, hdE⟩ := hds d (List.mem_cons_self _ _)
          by_cases hdv : d ∈ vis
          · obtain ⟨visF, accF, heq2, hc1, hc2, hc3, hc4, hc5, hc6, hc7, hc8⟩ :=
              ihds (fun a ha => hds a (List.mem_cons_of_mem _ ha)) vis acc2
                hmeas hvisI haccvI hcloI hinvI
            refine ⟨visF, accF, by simp [runDeps2, hdv, heq2], hc1, hc2, ?_, ?_,
              hc5, hc6, hc7, hc8⟩
            · intro a ha
              rcases List.mem_cons.mp ha with h | h
              · exact h ▸ hc1 d hdv
              · exact hc3 a h
            · intro v hv
              rcases hc4 v hv with h | ⟨d2, hd2, hrt⟩
              · exact Or.inl h
              · exact Or.inr ⟨d2, List.mem_cons_of_mem _ hd2, hrt⟩
          · have hgdc : ∀ g ∈ name :: grey, Relation.TransGen (Edge st) g d := by
              intro g hg
              rcases List.mem_cons.mp hg with h | h
              · exact h ▸ Relation.TransGen.single hdE
              · exact Relation.TransGen.tail (hgd g h) hdE
            obtain ⟨vis2, acc3, heqc, hb1, hb2, ⟨postc, hpostc⟩, hb4, hb5, hb6, hb7,
              hb8, hb9⟩ :=
              ih d vis acc2 (name :: grey) hmeas hdU hdv hgdc hvisI haccvI hcloI hinvI
            have hmeas2 : (U.filter fun u => u ∉ vis2).card + 1 ≤ n := by
              have := measure_mono (U := U) hb2
              omega
            obtain ⟨visF, accF, heq2, hc1, ⟨post2, hpost2⟩, hc3, hc4, hc5, hc6, hc7,
              hc8⟩ :=
              ihds (fun a ha => hds a (List.mem_cons_of_mem _ ha)) vis2 acc3
                hmeas2 hb6 hb7 hb8 hb9
            refine ⟨visF, accF, by simp [runDeps2, hdv, heqc, heq2],
              fun v hv => hc1 v (hb2 v hv),
              ⟨postc ++ post2, by rw [hpost2, hpostc, List.append_assoc]⟩, ?_, ?_,
              hc5, hc6, hc7, hc8⟩
            · intro a ha
              rcases List.mem_cons.mp ha with h | h
              · exact h ▸ hc1 d hb1
              · exact hc3 a h
            · intro v hv
              rcases hc4 v hv with h | ⟨d2, hd2, hrt⟩
              · rcases hb5 v h with h2 | h2
                · exact Or.inl h2
                · exact Or.inr ⟨d, List.mem_cons_self _ _, h2⟩
              · exact Or.inr ⟨d2, List.mem_cons_of_mem _ hd2, hrt⟩
      obtain ⟨visF, accLoop, heqloop, hmono, ⟨post, hpost⟩, hdsin, hreachF, hvisF,
        haccvF, hcloF, hinvF⟩ :=
        key meta.dependencies (fun d hd => ⟨hU name meta hm d hd, edge_of_dep hm hd⟩)
          (name :: visited) acc hmeas0
          (by
            intro v hv
            rcases List.mem_cons.mp hv with h | h
            · exact Or.inr (Or.inl (h ▸ List.mem_cons_self _ _))
            · rcases hvis v h with h2 | h2 | h2
              · exact Or.inl h2
              · exact Or.inr (Or.inl (List.mem_cons_of_mem _ h2))
              · exact Or.inr (Or.inr h2))
          (fun x hx => List.mem_cons_of_mem _ (haccv x hx))
          (fun x hx d hd => List.mem_cons_of_mem _ (hclo x hx d hd))
          (Acc2Inv_mono_grey (fun x hx => List.mem_cons_of_mem _ hx) hinv)
      refine ⟨visF, accLoop ++ [name], ?_, hmono name (List.mem_cons_self _ _),
        fun v hv => hmono v (List.mem_cons_of_mem _ hv),
        ⟨post ++ [name], by rw [hpost, List.append_assoc]⟩,
        fun _ => List.mem_append_right _ (List.mem_singleton.mpr rfl), ?_, ?_, ?_, ?_, ?_⟩
      · simp only [dfs2]
        rw [hm]
        simp [heqloop]
      · intro v hv
        rcases hreachF v hv with h | ⟨d2, hd2, hrt⟩
        · rcases List.mem_cons.mp h with h2 | h2
          · exact Or.inr (h2 ▸ Relation.ReflTransGen.refl)
          · exact Or.inl h2
        · refine Or.inr (Relation.ReflTransGen.head ?_ hrt)
          exact edge_of_dep hm hd2
      · intro v hv
        rcases hvisF v hv with h | h | h
        · exact Or.inl (List.mem_append_left _ h)
        · rcases List.mem_cons.mp h with h2 | h2
          · exact Or.inl (h2 ▸ List.mem_append_right _ (List.mem_singleton.mpr rfl))
          · exact Or.inr (Or.inl h2)
        · exact Or.inr (Or.inr h)
      · intro x hx
        rcases List.mem_append.mp hx with h | h
        · exact haccvF x h
        · exact (List.mem_singleton.mp h) ▸ hmono name (List.mem_cons_self _ _)
      · intro x hx d hd
        rcases List.mem_append.mp hx with h | h
        · exact hcloF x h d hd
        · rw [List.mem_singleton.mp h] at hd
          rw [depsOf_eq_of_get hm] at hd
          exact hdsin d hd
      · refine Acc2Inv_append hinvF hgd (found_of_get hm) ?_
        intro d hd
        have hdvis : d ∈ visF := by
          refine hdsin d ?_
          rw [depsOf_eq_of_get hm] at hd
          exact hd
        rcases hvisF d hdvis with h | h | h
        · exact Or.inl h
        · exact Or.inr (Or.inr h)
        · exact Or.inr (Or.inl h)

lemma runNames2_spec (st : Store) (U : Finset (List Char))
    (hU : ∀ a m, get_metadata_by_name st a = some m → ∀ d ∈ m.dependencies, d ∈ U)
    (fuel : Nat) :
    ∀ nms vis acc,
      (U.filter fun u => u ∉ vis).card + 1 ≤ fuel →
      (∀ nm ∈ nms, nm ∈ U) →
      (∀ v ∈ vis, v ∈ acc ∨ v ∈ ([] : List (List Char)) ∨ ¬ foundIn st v) →
      (∀ x ∈ acc, x ∈ vis) →
      (∀ x ∈ acc, ∀ d ∈ depsOf st x, d ∈ vis) →
      Acc2Inv st [] acc →
      ∃ visF accF,
        runDeps2 (fun d v a => dfs2 st fuel d v a) nms vis acc = some (visF, accF) ∧
        (∀ v ∈ vis, v ∈ visF) ∧ (∃ post, accF = acc ++ post) ∧
        (∀ nm ∈ nms, nm ∈ visF) ∧
        (∀ v ∈ visF, v ∈ vis ∨ ∃ r ∈ nms, Relation.ReflTransGen (Edge st) r v) ∧
        (∀ v ∈ visF, v ∈ accF ∨ v ∈ ([] : List (List Char)) ∨ ¬ foundIn st v) ∧
        (∀ x ∈ accF, x ∈ visF) ∧
        (∀ x ∈ accF, ∀ d ∈ depsOf st x, d ∈ visF) ∧
        Acc2Inv st [] accF := by
  intro nms
  induction nms with
  | nil =>
    intro vis acc _ _ hvis haccv hclo hinv
    exact ⟨vis, acc, rfl, fun v hv => hv, ⟨[], by simp⟩, by simp,
      fun v hv => Or.inl hv, hvis, haccv, hclo, hinv⟩
  | cons nm rest ihn =>
    intro vis acc hmeas hnms hvis haccv hclo hinv
    by_cases hdv : nm ∈ vis
    · obtain ⟨visF, accF, heq2, hc1, hc2, hc3, hc4, hc5, hc6, hc7, hc8⟩ :=
        ihn vis acc hmeas (fun a ha => hnms a (List.mem_cons_of_mem _ ha))
          hvis haccv hclo hinv
      refine ⟨visF, accF, by simp [runDeps2, hdv, heq2], hc1, hc2, ?_, ?_,
        hc5, hc6, hc7, hc8⟩
      · intro a ha
        rcases List.mem_cons.mp ha with h | h
        · exact h ▸ hc1 nm hdv
        · exact hc3 a h
      · intro v hv
        rcases hc4 v hv with h | ⟨r, hr, hrt⟩
        · exact Or.inl h
        · exact Or.inr ⟨r, List.mem_cons_of_mem _ hr, hrt⟩
    · obtain ⟨vis2, acc3, heqc, hb1, hb2, ⟨postc, hpostc⟩, hb4, hb5, hb6, hb7,
        hb8, hb9⟩ :=
        dfs2_spec st U hU fuel nm vis acc [] hmeas (hnms nm (List.mem_cons_self _ _))
          hdv (by intro g hg; cases hg) hvis haccv hclo hinv
      have hmeas2 : (U.filter fun u => u ∉ vis2).card + 1 ≤ fuel := by
        have := measure_mono (U := U) hb2
        omega
      obtain ⟨visF, accF, heq2, hc1, ⟨post2, hpost2⟩, hc3, hc4, hc5, hc6, hc7, hc8⟩ :=
        ihn vis2 acc3 hmeas2 (fun a ha => hnms a (List.mem_cons_of_mem _ ha))
          hb6 hb7 hb8 hb9
      refine ⟨visF, accF, by simp [runDeps2, hdv, heqc, heq2],
        fun v hv => hc1 v (hb2 v hv),
        ⟨postc ++ post2, by rw [hpost2, hpostc, List.append_assoc]⟩, ?_, ?_,
        hc5, hc6, hc7, hc8⟩
      · intro a ha
        rcases List.mem_cons.mp ha with h | h
        · exact h ▸ hc1 nm hb1
        · exact hc3 a h
      · intro v hv
        rcases hc4 v hv with h | ⟨r, hr, hrt⟩
        · rcases hb5 v h with h2 | h2
          · exact Or.inl h2
          · exact Or.inr ⟨nm, List.mem_cons_self _ _, h2⟩
        · exact Or.inr ⟨r, List.mem_cons_of_mem _ hr, hrt⟩

lemma filter_split {α : Type} (p : α → Bool) :
    ∀ (L l1 : List α) (x : α) (l2 : List α), L.filter p = l1 ++ x :: l2 →
      ∃ L1 L2, L = L1 ++ x :: L2 ∧ l1 = L1.filter p ∧ l2 = L2.filter p := by
  intro L
  induction L with
  | nil =>
    intro l1 x l2 h
    simp only [List.filter_nil] at h
    exact absurd h (by simp)
  | cons a L ih =>
    intro l1 x l2 h
    by_cases hp : p a
    · rw [List.filter_cons, if_pos hp] at h
      rcases l1 with _ | ⟨b, l1a⟩
      · simp only [List.nil_append] at h
        injection h with h1 h2
        exact ⟨[], L, by simp [h1], rfl, h2.symm⟩
      · simp only [List.cons_append] at h
        injection h with h1 h2
        obtain ⟨L1, L2, hL, hl1, hl2⟩ := ih l1a x l2 h2
        refine ⟨a :: L1, L2, by simp [hL], ?_, hl2⟩
        rw [List.filter_cons, if_pos hp, ← h1, hl1]
    · rw [List.filter_cons, if_neg hp] at h
      obtain ⟨L1, L2, hL, hl1, hl2⟩ := ih l1 x l2 h
      refine ⟨a :: L1, L2, by simp [hL], ?_, hl2⟩
      rw [List.filter_cons, if_neg hp, hl1]

lemma rank_lt_of_edge {st : Store} {rkk : List Char → Nat}
    (h : ∀ kv ∈ st, ∀ d ∈ kv.2.dependencies, rkk (pyLower d) < rkk kv.1)
    {a b : List Char} (he : Edge st a b) : rkk (pyLower b) < rkk (pyLower a) := by
  obtain ⟨m, hm, hd⟩ := he
  unfold get_metadata_by_name at hm
  rcases hfind : st.find? (fun kv => kv.1 == pyLower a) with _ | kv
  · rw [hfind] at hm; cases hm
  · rw [hfind] at hm
    have hkv : kv ∈ st := List.mem_of_find?_eq_some hfind
    have hbeq := List.find?_some hfind
    have hk1 : kv.1 = pyLower a := by simpa using hbeq
    have hm2 : kv.2 = m := by cases hm; rfl
    have hres := h kv hkv b (by rw [hm2]; exact hd)
    rw [hk1] at hres
    exact hres

/-- A store admitting a rank function that strictly decreases along each
declared dependency (measured on lowercased lookup keys) has no dependency
cycles; used to discharge acyclicity side conditions on concrete stores. -/
lemma acyclic_of_rank (st : Store) (rkk : List Char → Nat)
    (h : ∀ kv ∈ st, ∀ d ∈ kv.2.dependencies, rkk (pyLower d) < rkk kv.1) :
    ∀ x, ¬ Relation.TransGen (Edge st) x x := by
  have hlt : ∀ a b, Relation.TransGen (Edge st) a b →
      rkk (pyLower b) < rkk (pyLower a) := by
    intro a b htg
    induction htg with
    | single he => exact rank_lt_of_edge h he
    | tail _ he ihp => exact lt_trans (rank_lt_of_edge h he) ihp
  intro x htg
  exact lt_irrefl _ (hlt x x htg)

lemma res_mem_of_reach {st : Store} {names res : List (List Char)}
    (hg : GoodRes st res)
    (hnm : ∀ nm ∈ names, nm ∈ res ∨ ¬ foundIn st nm)
    {x : List Char} (hf : foundIn st x) (hr : ReachFrom st names x) : x ∈ res := by
  obtain ⟨r, hrn, hrt⟩ := hr
  rcases Relation.ReflTransGen.cases_head hrt with heq | ⟨c, hrc, _⟩
  · subst heq
    rcases hnm r hrn with h | h
    · exact h
    · exact absurd hf h
  · have hrres : r ∈ res := by
      rcases hnm r hrn with h | h
      · exact h
      · exact absurd (found_of_edge hrc) h
    exact good_reach_mem hg hrres hrt hf

lemma gio_acyclic_spec (st : Store) (names : List (List Char))
    (hacyc : ∀ x, ReachFrom st names x → ¬ Relation.TransGen (Edge st) x x) :
    ∃ out, get_insertion_order st names = some (Except.ok out) ∧
      (∀ x, x ∈ out ↔ foundIn st x ∧ ReachFrom st names x) ∧
      (∀ l1 x l2, out = l1 ++ x :: l2 →
        ∀ d ∈ depsOf st x, foundIn st d → d ∈ l1) := by
  have hU : ∀ a m, get_metadata_by_name st a = some m →
      ∀ d ∈ m.dependencies, d ∈ depUniverse st names :=
    fun a m hm => mem_universe_of_dep hm
  have hfuel : (depUniverse st names).card + 1 ≤ gioFuel st names :=
    universe_card_le st names
  have hnmsU : ∀ nm ∈ names, nm ∈ depUniverse st names :=
    fun nm h => mem_universe_of_req h
  have hPc : ∀ a b, ReachFrom st names a → Edge st a b → ReachFrom st names b := by
    rintro a b ⟨r, hr, hrt⟩ he
    exact ⟨r, hr, Relation.ReflTransGen.tail hrt he⟩
  obtain ⟨res1, heq1⟩ := runNames1_ok st (depUniverse st names) hU
    (ReachFrom st names) hPc hacyc (gioFuel st names) hfuel names []
    (fun nm h => ⟨hnmsU nm h, ⟨nm, h, Relation.ReflTransGen.refl⟩⟩) trivial
  obtain ⟨out1, heqs1, hoks1⟩ := runNames1_spec st (depUniverse st names) hU
    (gioFuel st names) hfuel names [] hnmsU trivial
  rw [heq1] at heqs1
  cases heqs1
  obtain ⟨hg1, _, hnm1, hreach1⟩ := hoks1 res1 rfl
  obtain ⟨res2, heq2⟩ := runNames1_ok st (depUniverse st names) hU
    (ReachFrom st names) hPc hacyc (gioFuel st names) hfuel names res1
    (fun nm h => ⟨hnmsU nm h, ⟨nm, h, Relation.ReflTransGen.refl⟩⟩) hg1
  obtain ⟨out2, heqs2, hoks2⟩ := runNames1_spec st (depUniverse st names) hU
    (gioFuel st names) hfuel names res1 hnmsU hg1
  rw [heq2] at heqs2
  cases heqs2
  obtain ⟨hg2, ⟨pre12, hpre12⟩, hnm2, hreach2⟩ := hoks2 res2 rfl
  have hres2reach : ∀ x ∈ res2, ReachFrom st names x := by
    intro x hx
    rcases hreach2 x hx with h | ⟨r, hr, hrt⟩
    · rcases hreach1 x h with h2 | ⟨r, hr, hrt⟩
      · cases h2
      · exact ⟨r, hr, hrt⟩
    · exact ⟨r, hr, hrt⟩
  have hres2found : ∀ x ∈ res2, foundIn st x := good_found hg2
  have hfuel0 : ((depUniverse st names).filter
      fun u => u ∉ ([] : List (List Char))).card + 1 ≤ gioFuel st names := by
    rw [filter_nil_measure]; exact hfuel
  obtain ⟨visF, ordered, heqo, _, _, hnmvis, hreachvis, hvisord, hordvis, hcloord,
    hinvord⟩ :=
    runNames2_spec st (depUniverse st names) hU (gioFuel st names) names [] [] hfuel0
      hnmsU (by intro v hv; cases hv) (by intro x hx; cases hx)
      (by intro x hx; cases hx)
      (by intro l1 x l2 h; exact absurd h (by simp))
  have hordfound : ∀ x ∈ ordered, foundIn st x := by
    intro x hx
    obtain ⟨s, t, hst⟩ := List.append_of_mem hx
    exact (hinvord s x t hst).1
  have hordreach : ∀ x ∈ ordered, ReachFrom st names x := by
    intro x hx
    rcases hreachvis x (hordvis x hx) with h | ⟨r, hr, hrt⟩
    · cases h
    · exact ⟨r, hr, hrt⟩
  have hmemord : ∀ x, foundIn st x → ReachFrom st names x → x ∈ ordered := by
    rintro x hf ⟨r, hr, hrt⟩
    have hpath : ∀ y, Relation.ReflTransGen (Edge st) r y → y ∈ visF := by
      intro y hy
      induction hy with
      | refl => exact hnmvis r hr
      | tail h1 h2 ihp =>
        rename_i m w
        have hmf : foundIn st m := found_of_edge h2
        have hmord : m ∈ ordered := by
          rcases hvisord m ihp with h | h | h
          · exact h
          · cases h
          · exact absurd hmf h
        have hwdep : w ∈ depsOf st m := by
          obtain ⟨mm, hmm, hmem⟩ := h2
          rw [depsOf_eq_of_get hmm]; exact hmem
        exact hcloord m hmord w hwdep
    rcases hvisord x (hpath x hrt) with h | h | h
    · exact h
    · cases h
    · exact absurd hf h
  refine ⟨ordered.filter (fun x => x ∈ res2), ?_, ?_, ?_⟩
  · simp [get_insertion_order, heq1, heq2, heqo]
  · intro x
    rw [List.mem_filter]
    constructor
    · rintro ⟨hxo, hxr⟩
      have hxres2 : x ∈ res2 := by simpa using hxr
      exact ⟨hres2found x hxres2, hres2reach x hxres2⟩
    · rintro ⟨hf, hr⟩
      refine ⟨hmemord x hf hr, ?_⟩
      simpa using res_mem_of_reach hg2 hnm2 hf hr
  · intro l1 x l2 heqf d hd hdf
    obtain ⟨L1, L2, hL, hl1, hl2⟩ := filter_split _ ordered l1 x l2 heqf
    have hxord : x ∈ ordered := by
      rw [hL]; exact List.mem_append_right _ (List.mem_cons_self _ _)
    have hxreach : ReachFrom st names x := hordreach x hxord
    obtain ⟨hfx, hdisj⟩ := hinvord L1 x L2 hL
    rcases hdisj d hd with h | h | ⟨hpos, htg⟩
    · have hdreach : ReachFrom st names d := by
        obtain ⟨r, hr, hrt⟩ := hxreach
        exact ⟨r, hr, Relation.ReflTransGen.tail hrt (edge_of_depsOf hfx hd)⟩
      have hdres2 : d ∈ res2 := res_mem_of_reach hg2 hnm2 hdf hdreach
      rw [hl1]
      exact List.mem_filter.mpr ⟨h, by simpa using hdres2⟩
    · exact absurd hdf h
    · have hcyc : Relation.TransGen (Edge st) x x :=
        Relation.TransGen.head (edge_of_depsOf hfx hd) htg
      exact absurd hcyc (hacyc x hxreach)

lemma gio_cycle_error (st : Store) (names : List (List Char))
    (hcyc : CycleReachable st names) :
    get_insertion_order st names = some (Except.error ()) := by
  obtain ⟨x, hreach, htg⟩ := hcyc
  have hU : ∀ a m, get_metadata_by_name st a = some m →
      ∀ d ∈ m.dependencies, d ∈ depUniverse st names :=
    fun a m hm => mem_universe_of_dep hm
  have hfuel : (depUniverse st names).card + 1 ≤ gioFuel st names :=
    universe_card_le st names
  have hnmsU : ∀ nm ∈ names, nm ∈ depUniverse st names :=
    fun nm h => mem_universe_of_req h
  obtain ⟨out1, heqs1, hoks1⟩ := runNames1_spec st (depUniverse st names) hU
    (gioFuel st names) hfuel names [] hnmsU trivial
  rcases out1 with e | res1
  · cases e
    simp [get_insertion_order, heqs1]
  · obtain ⟨hg1, _, hnm1, hreach1⟩ := hoks1 res1 rfl
    obtain ⟨out2, heqs2, hoks2⟩ := runNames1_spec st (depUniverse st names) hU
      (gioFuel st names) hfuel names res1 hnmsU hg1
    rcases out2 with e | res2
    · cases e
      simp [get_insertion_order, heqs1, heqs2]
    · exfalso
      obtain ⟨hg2, _, hnm2, hreach2⟩ := hoks2 res2 rfl
      have hxf : foundIn st x := by
        obtain ⟨c, he, _⟩ := Relation.TransGen.head'_iff.mp htg
        exact found_of_edge he
      have hx2 : x ∈ res2 := res_mem_of_reach hg2 hnm2 hxf hreach
      exact good_no_cycle hg2 x hx2 htg

/-- Store for the acyclic example: script A depends on [B], B on []. -/
def exStoreAB : Store :=
  [("a".toList, ⟨"A".toList, ["B".toList]⟩), ("b".toList, ⟨"B".toList, []⟩)]

/-- Store with the cycle A→B→C→A. -/
def exStoreCycle : Store :=
  [("a".toList, ⟨"A".toList, ["B".toList]⟩),
   ("b".toList, ⟨"B".toList, ["C".toList]⟩),
   ("c".toList, ⟨"C".toList, ["A".toList]⟩)]

/-- Store whose script A declares the missing dependency Ghost. -/
def exStoreGhost : Store := [("a".toList, ⟨"A".toList, ["Ghost".toList]⟩)]

/-- Store whose script A declares the missing dependency Ghost and A
itself. -/
def exStoreGhostLoop : Store :=
  [("a".toList, ⟨"A".toList, ["Ghost".toList, "A".toList]⟩)]

/-- C2: over any store with no dependency cycle reachable from the
requested names, get_insertion_order succeeds and returns exactly the
scripts present in the store that are requested or transitively depended
on, ordered so that every present dependency of an entry precedes it; in
particular, over A→[B], B→[], resolving ["A"] returns exactly ["B", "A"]. -/
theorem get_insertion_order_topological :
    (∀ (st : Store) (names : List (List Char)), ¬ CycleReachable st names →
      ∃ out, get_insertion_order st names = some (Except.ok out) ∧
        (∀ x, x ∈ out ↔ foundIn st x ∧ ReachFrom st names x) ∧
        (∀ l1 x l2, out = l1 ++ x :: l2 →
          ∀ d ∈ depsOf st x, foundIn st d → d ∈ l1)) ∧
    get_insertion_order exStoreAB ["A".toList] =
      some (Except.ok ["B".toList, "A".toList]) := by
  constructor
  · intro st names hnc
    exact gio_acyclic_spec st names (fun x hr htg => hnc ⟨x, hr, htg⟩)
  · rfl

/-- C2 witness: the universal part applied to the concrete store A→[B],
B→[], request ["A"], with acyclicity discharged by a rank function. -/
theorem get_insertion_order_topological_witness :
    ∃ out, get_insertion_order exStoreAB ["A".toList] = some (Except.ok out) ∧
      (∀ x, x ∈ out ↔ foundIn exStoreAB x ∧ ReachFrom exStoreAB ["A".toList] x) ∧
      (∀ l1 x l2, out = l1 ++ x :: l2 →
        ∀ d ∈ depsOf exStoreAB x, foundIn exStoreAB d → d ∈ l1) :=
  get_insertion_order_topological.1 exStoreAB ["A".toList]
    (fun ⟨x, hr, htg⟩ =>
      acyclic_of_rank exStoreAB (fun n => if n = "a".toList then 1 else 0)
        (by decide) x htg)

/-- C3: whenever a dependency cycle is reachable from a requested name,
get_insertion_order raises CircularDependencyError (the Except.error
outcome) and returns no partial list; in particular the store A→[B],
B→[C], C→[A] with request ["A"] errors. -/
theorem get_insertion_order_cycle_aborts :
    (∀ (st : Store) (names : List (List Char)), CycleReachable st names →
      get_insertion_order st names = some (Except.error ())) ∧
    get_insertion_order exStoreCycle ["A".toList] = some (Except.error ()) := by
  constructor
  · exact gio_cycle_error
  · rfl

/-- C3 witness: the universal part applied to the cyclic store with
request ["B"], the cycle being exhibited edge by edge. -/
theorem get_insertion_order_cycle_aborts_witness :
    get_insertion_order exStoreCycle ["B".toList] = some (Except.error ()) := by
  have eBC : Edge exStoreCycle "B".toList "C".toList :=
    ⟨⟨"B".toList, ["C".toList]⟩, by decide, by decide⟩
  have eCA : Edge exStoreCycle "C".toList "A".toList :=
    ⟨⟨"C".toList, ["A".toList]⟩, by decide, by decide⟩
  have eAB : Edge exStoreCycle "A".toList "B".toList :=
    ⟨⟨"A".toList, ["B".toList]⟩, by decide, by decide⟩
  exact get_insertion_order_cycle_aborts.1 exStoreCycle ["B".toList]
    ⟨"B".toList, ⟨"B".toList, by decide, Relation.ReflTransGen.refl⟩,
      Relation.TransGen.head eBC (Relation.TransGen.head eCA
        (Relation.TransGen.single eAB))⟩

/-- C8 counterexample: in the store whose only script A declares the
missing dependency Ghost together with A itself, the request ["A"]
raises the circular-dependency error instead of returning an order that
omits Ghost and contains A, refuting the claim for every such store. -/
theorem missing_dependency_counterexample :
    (∃ m, get_metadata_by_name exStoreGhostLoop "A".toList = some m ∧
      "Ghost".toList ∈ m.dependencies) ∧
    get_metadata_by_name exStoreGhostLoop "Ghost".toList = none ∧
    get_insertion_order exStoreGhostLoop ["A".toList] =
      some (Except.error ()) :=
  ⟨⟨⟨"A".toList, ["Ghost".toList, "A".toList]⟩, by decide, by decide⟩,
    by decide, rfl⟩

/-- C8 amended: provided no dependency cycle is reachable from the
request, a missing dependency is skipped without error:
get_insertion_order succeeds, no unresolvable name appears in the
returned order, and every requested name present in the store is still
included; concretely, over the store A→["Ghost"], resolving ["A"] yields
["A"] although Ghost has no store entry. -/
theorem missing_dependency_skipped :
    (∀ (st : Store) (names : List (List Char)) (name : List Char),
      ¬ CycleReachable st names → name ∈ names →
      ∃ out, get_insertion_order st names = some (Except.ok out) ∧
        (∀ g, ¬ foundIn st g → g ∉ out) ∧
        (foundIn st name → name ∈ out)) ∧
    (get_metadata_by_name exStoreGhost "Ghost".toList = none ∧
      get_insertion_order exStoreGhost ["A".toList] =
        some (Except.ok ["A".toList])) := by
  constructor
  · intro st names name hnc hmem
    obtain ⟨out, heq, hmemchar, _⟩ :=
      gio_acyclic_spec st names (fun x hr htg => hnc ⟨x, hr, htg⟩)
    refine ⟨out, heq, ?_, ?_⟩
    · intro g hg hgout
      exact hg ((hmemchar g).mp hgout).1
    · intro hf
      exact (hmemchar name).mpr ⟨hf, ⟨name, hmem, Relation.ReflTransGen.refl⟩⟩
  · exact ⟨by decide, rfl⟩

/-- C8 witness: the amended universal part applied to the store
A→["Ghost"] with request ["A"], acyclicity discharged by a rank
function. -/
theorem missing_dependency_skipped_witness :
    ∃ out, get_insertion_order exStoreGhost ["A".toList] =
        some (Except.ok out) ∧
      (∀ g, ¬ foundIn exStoreGhost g → g ∉ out) ∧
      (foundIn exStoreGhost "A".toList → "A".toList ∈ out) :=
  missing_dependency_skipped.1 exStoreGhost ["A".toList] "A".toList
    (fun ⟨x, hr, htg⟩ =>
      acyclic_of_rank exStoreGhost (fun n => if n = "a".toList then 1 else 0)
        (by decide) x htg)
    (by decide)

/-- The fields of PowerQueryMetadata that participate in the round trip.
The path field is excluded from the dump by to_file_content and set from
the file path on parse; the claim compares at the same path, so it is
left out of the model. -/
structure PQMeta where
  name : List Char
  category : List Char
  tags : List (List Char)
  dependencies : List (List Char)
  description : List Char
  version : List Char
deriving DecidableEq, Repr

/-- The cleanup_strings validator of PowerQueryMetadata:
str(v).replace("\r", " ").replace("\n", " ").strip(). -/
def cleanupString (s : List Char) : List Char :=
  pyStrip (s.map fun c => if c == '\r' || c == '\n' then ' ' else c)

/-- A YAML value of the shapes the metadata dict produces: a string
scalar or a list of string scalars. -/
inductive YVal where
  | str : List Char → YVal
  | list : List (List Char) → YVal
deriving DecidableEq, Repr

/-- YAML boolean/null words (lowercased); strings resolving to these are
quoted by the dumper. -/
def yamlWords : List (List Char) :=
  ["true".toList, "false".toList, "yes".toList, "no".toList, "on".toList,
   "off".toList, "null".toList]

/-- Scalars that yaml.safe_dump emits plain (unquoted) within the
modelled subset: nonempty, starting with an ASCII letter, containing only
ASCII letters, digits, underscore, space and dot, not ending with a
space, and not a YAML boolean/null word. -/
def plainSafe (s : List Char) : Bool :=
  !s.isEmpty &&
  (match s.head? with
   | some c => ('a' ≤ c && c ≤ 'z') || ('A' ≤ c && c ≤ 'Z')
   | none => false) &&
  s.all (fun c => ('a' ≤ c && c ≤ 'z') || ('A' ≤ c && c ≤ 'Z') ||
    ('0' ≤ c && c ≤ '9') || c == '_' || c == ' ' || c == '.') &&
  s.getLast? != some ' ' &&
  !(yamlWords.contains (pyLower s))

/-- Number-like scalars (a digit head, digits and at most one dot): YAML
resolves these as int or float, so yaml.safe_dump single-quotes them and
safe_load returns the original string. -/
def numLike (s : List Char) : Bool :=
  !s.isEmpty &&
  (match s.head? with
   | some c => '0' ≤ c && c ≤ '9'
   | none => false) &&
  s.all (fun c => ('0' ≤ c && c ≤ '9') || c == '.') &&
  (s.filter (fun c => c == '.')).length ≤ 1

/-- The scalars on which the modelled dumper provably agrees with
yaml.safe_dump: plain-emitted scalars, quoted number-like scalars, and
the quoted empty string. -/
def scalarSafe (s : List Char) : Bool := plainSafe s || numLike s || s.isEmpty

/-- Scalar emission: plain scalars bare, everything else single-quoted
(the modelled subset contains no embedded quotes to escape). -/
def dumpScalar (s : List Char) : List Char :=
  if plainSafe s then s else SQ :: (s ++ [SQ])

/-- One key: value line of the dump. -/
def dumpKV (k v : List Char) : List Char :=
  k ++ ':' :: ' ' :: (dumpScalar v ++ ['\n'])

/-- One list-valued entry of the dump: an empty list inline as [],
otherwise a block sequence that PyYAML emits indentless under a mapping
key. -/
def dumpListKV (k : List Char) (items : List (List Char)) : List Char :=
  match items with
  | [] => k ++ ':' :: ' ' :: '[' :: ']' :: ['\n']
  | _ => k ++ ':' :: '\n' ::
      (items.map fun i => '-' :: ' ' :: (dumpScalar i ++ ['\n'])).flatten

/-- yaml.safe_dump(meta_dict, sort_keys=False, allow_unicode=True) for
the dict model_dump(exclude=path) produces, keys in declaration order,
modelled for the field values described at scalarSafe. -/
def dumpMeta (m : PQMeta) : List Char :=
  dumpKV "name".toList m.name ++
  dumpKV "category".toList m.category ++
  dumpListKV "tags".toList m.tags ++
  dumpListKV "dependencies".toList m.dependencies ++
  dumpKV "description".toList m.description ++
  dumpKV "version".toList m.version

/-- PowerQueryScript.to_file_content:
f"---\n{yaml.safe_dump(...)}---\n\n" + self.body. -/
def to_file_content (m : PQMeta) (body : List Char) : List Char :=
  '-' :: '-' :: '-' :: '\n' ::
    (dumpMeta m ++ ('-' :: '-' :: '-' :: '\n' :: '\n' :: body))

/-- One step of python text.split(sep, n): the part before the first
occurrence of sep and the remainder after it, none when sep does not
occur. -/
def findSplit (sep : List Char) : List Char → Option (List Char × List Char)
  | [] => none
  | c :: rest =>
    if sep.isPrefixOf (c :: rest) then some ([], (c :: rest).drop sep.length)
    else
      match findSplit sep rest with
      | some (a, b) => some (c :: a, b)
      | none => none

/-- Text split into lines at newline characters (the modelled frontmatter
uses only plain newlines). -/
def splitLines : List Char → List (List Char)
  | [] => [[]]
  | c :: rest =>
    if c == '\n' then [] :: splitLines rest
    else
      match splitLines rest with
      | [] => [[c]]
      | l :: ls => (c :: l) :: ls

/-- Split a line at its first colon. -/
def splitColon : List Char → Option (List Char × List Char)
  | [] => none
  | c :: rest =>
    if c == ':' then some ([], rest)
    else
      match splitColon rest with
      | some (a, b) => some (c :: a, b)
      | none => none

/-- Read back one scalar: a single-quoted token yields its inner text;
anything else (without embedded quotes) is a plain string scalar. -/
def parseScalar (v : List Char) : Option (List Char) :=
  match v with
  | [] => none
  | c :: rest =>
    if c == SQ then
      if rest.getLast? == some SQ && !(rest.dropLast.contains SQ) then
        some rest.dropLast
      else none
    else if v.contains SQ then none
    else some v

/-- Read back one block-sequence item line of the form - item. -/
def parseItem (l : List Char) : Option (List Char) :=
  if ['-', ' '].isPrefixOf l then parseScalar (l.drop 2) else none

/-- Read back a run of block-sequence item lines. -/
def parseItems : List (List Char) → Option (List (List Char))
  | [] => some []
  | l :: ls =>
    match parseItem l, parseItems ls with
    | some v, some vs => some (v :: vs)
    | _, _ => none

/-- Collect the leading - item lines of a block sequence. -/
def takeListItems : List (List Char) → List (List Char) × List (List Char)
  | [] => ([], [])
  | l :: ls =>
    if ['-', ' '].isPrefixOf l then
      match takeListItems ls with
      | (items, rest) => (l :: items, rest)
    else ([], l :: ls)

/-- Line-based model of yaml.safe_load on frontmatter of the dumped
shape: blank lines are skipped; an entry is a key: value line, a
key: [] line, or a key: heading followed by - item lines.  none models a
YAML error or a document outside the modelled subset. -/
def parseYLines : Nat → List (List Char) → Option (List (List Char × YVal))
  | 0, _ => none
  | _, [] => some []
  | fuel + 1, l :: ls =>
    if l.all isPySpace then parseYLines fuel ls
    else
      match splitColon l with
      | none => none
      | some (key, after) =>
        if key.isEmpty || !(key.all fun c => isWordChar c) then none
        else if after.isEmpty then
          match takeListItems ls with
          | ([], _) => none
          | (items, rest) =>
            match parseItems items with
            | none => none
            | some vals =>
              match parseYLines fuel rest with
              | none => none
              | some tail2 => some ((key, YVal.list vals) :: tail2)
        else
          if after.head? = some ' ' then
            if after.drop 1 = ['[', ']'] then
              match parseYLines fuel ls with
              | none => none
              | some tail2 => some ((key, YVal.list []) :: tail2)
            else
              match parseScalar (after.drop 1) with
              | none => none
              | some sv =>
                match parseYLines fuel ls with
                | none => none
                | some tail2 => some ((key, YVal.str sv) :: tail2)
          else none

/-- Dict lookup in the parsed frontmatter. -/
def ylookup (d : List (List Char × YVal)) (k : List Char) : Option YVal :=
  (d.find? (fun kv => kv.1 == k)).map (·.2)

/-- A string field of PowerQueryMetadata: the default when absent
(validators do not run on defaults), the cleaned value when present as a
string, a pydantic ValidationError (none) when present with a
non-string value. -/
def getStrField (d : List (List Char × YVal)) (k deflt : List Char) :
    Option (List Char) :=
  match ylookup d k with
  | none => some deflt
  | some (YVal.str s) => some (cleanupString s)
  | some (YVal.list _) => none

/-- A list field of PowerQueryMetadata: default [], present list kept,
non-list value a ValidationError (none). -/
def getListField (d : List (List Char × YVal)) (k : List Char) :
    Option (List (List Char)) :=
  match ylookup d k with
  | none => some []
  | some (YVal.list l) => some l
  | some (YVal.str _) => none

/-- PowerQueryMetadata(**fm_dict) after from_file inserted the file-name
fallback for a missing name key. -/
def mkMeta (fallback : List Char) (d : List (List Char × YVal)) : Option PQMeta :=
  match (match ylookup d "name".toList with
         | none => some (cleanupString fallback)
         | some (YVal.str s) => some (cleanupString s)
         | some (YVal.list _) => none),
      getStrField d "category".toList "Uncategorized".toList,
      getListField d "tags".toList,
      getListField d "dependencies".toList,
      getStrField d "description".toList [],
      getStrField d "version".toList "1.0".toList with
  | some nm, some cat, some tg, some dp, some ds, some vr =>
    some ⟨nm, cat, tg, dp, ds, vr⟩
  | _, _, _, _, _, _ => none

/-- The frontmatter parser of PowerQueryScript.from_file applied to the
file text: when the left-stripped text starts with --- and
text.split("---", 2) has three parts, the middle part is YAML-parsed (a
YAML error leaves an empty dict and the whole text as body) and the third
part, with leading newlines stripped, becomes the body; otherwise the
whole text is the body under an empty dict.  fallback is the file base
name used for a missing name key; none is a metadata ValidationError.
The YAML step is asserted only on the modelled subset: frontmatter that
is a flat dict of the dumped shapes, or erroneous YAML; on YAML documents
outside it (e.g. a bare scalar) the Python code itself raises further
down and the model makes no claim. -/
def from_file_content (fallback text : List Char) : Option (PQMeta × List Char) :=
  let dashes : List Char := ['-', '-', '-']
  let fmbody : List (List Char × YVal) × List Char :=
    if dashes.isPrefixOf (text.dropWhile isPySpace) then
      match findSplit dashes text with
      | some (_, r1) =>
        match findSplit dashes r1 with
        | some (p1, p2) =>
          match parseYLines ((splitLines p1).length + 9) (splitLines p1) with
          | some d => (d, p2.dropWhile (fun c => c == '\n'))
          | none => ([], text)
        | none => ([], text)
      | none => ([], text)
    else ([], text)
  match mkMeta fallback fmbody.1 with
  | some m => some (m, fmbody.2)
  | none => none

/-- All scalar fields of a metadata record lie in the modelled yaml-safe
subset. -/
def metaSafe (m : PQMeta) : Bool :=
  scalarSafe m.name && scalarSafe m.category && m.tags.all scalarSafe &&
    m.dependencies.all scalarSafe && scalarSafe m.description &&
    scalarSafe m.version

lemma ne_of_range {lo hi c d : Char} (h1 : lo ≤ c) (h2 : c ≤ hi)
    (hd : ¬ (lo ≤ d ∧ d ≤ hi)) : c ≠ d := fun heq => hd ⟨heq ▸ h1, heq ▸ h2⟩

lemma scalar_chars {s : List Char} (h : scalarSafe s = true) :
    ∀ c ∈ s, c ≠ SQ ∧ c ≠ '\n' ∧ c ≠ ':' ∧ c ≠ '-' ∧ c ≠ '[' := by
  intro c hc
  have hall : (('a' ≤ c && c ≤ 'z') || ('A' ≤ c && c ≤ 'Z') ||
      ('0' ≤ c && c ≤ '9') || c == '_' || c == ' ' || c == '.') = true := by
    simp only [scalarSafe, Bool.or_eq_true] at h
    rcases h with (h | h) | h
    · unfold plainSafe at h
      simp only [Bool.and_eq_true] at h
      exact List.all_eq_true.mp h.1.1.2 c hc
    · unfold numLike at h
      simp only [Bool.and_eq_true] at h
      have h2 := List.all_eq_true.mp h.1.2 c hc
      simp only [Bool.or_eq_true] at h2 ⊢
      rcases h2 with h2 | h2
      · simp [h2]
      · simp [h2]
    · rw [List.isEmpty_iff] at h
      subst h
      cases hc
  simp only [Bool.or_eq_true, Bool.and_eq_true, decide_eq_true_eq,
    beq_iff_eq] at hall
  rcases hall with ((((⟨h1, h2⟩ | ⟨h1, h2⟩) | ⟨h1, h2⟩) | h1) | h1) | h1
  · exact ⟨ne_of_range h1 h2 (by decide), ne_of_range h1 h2 (by decide),
      ne_of_range h1 h2 (by decide), ne_of_range h1 h2 (by decide),
      ne_of_range h1 h2 (by decide)⟩
  · exact ⟨ne_of_range h1 h2 (by decide), ne_of_range h1 h2 (by decide),
      ne_of_range h1 h2 (by decide), ne_of_range h1 h2 (by decide),
      ne_of_range h1 h2 (by decide)⟩
  · exact ⟨ne_of_range h1 h2 (by decide), ne_of_range h1 h2 (by decide),
      ne_of_range h1 h2 (by decide), ne_of_range h1 h2 (by decide),
      ne_of_range h1 h2 (by decide)⟩
  · subst h1; exact (by decide)
  · subst h1; exact (by decide)
  · subst h1; exact (by decide)

lemma scalar_not_mem_SQ {s : List Char} (h : scalarSafe s = true) : SQ ∉ s :=
  fun hmem => (scalar_chars h SQ hmem).1 rfl

lemma scalar_contains_SQ {s : List Char} (h : scalarSafe s = true) :
    s.contains SQ = false := by
  rw [← Bool.not_eq_true]
  intro hct
  exact scalar_not_mem_SQ h (by simpa [List.contains_iff_exists_mem_beq] using hct)

lemma dumpScalar_chars {s : List Char} (h : scalarSafe s = true) :
    ∀ c ∈ dumpScalar s, c ≠ '\n' ∧ c ≠ '-' := by
  intro c hc
  unfold dumpScalar at hc
  split at hc
  · have := scalar_chars h c hc
    exact ⟨this.2.1, this.2.2.2.1⟩
  · rcases List.mem_cons.mp hc with h2 | h2
    · subst h2; exact ⟨by decide, by decide⟩
    · rcases List.mem_append.mp h2 with h3 | h3
      · have := scalar_chars h c h3
        exact ⟨this.2.1, this.2.2.2.1⟩
      · rw [List.mem_singleton.mp h3]
        exact ⟨by decide, by decide⟩

lemma dumpScalar_ne_brackets {s : List Char} (h : scalarSafe s = true) :
    dumpScalar s ≠ ['[', ']'] := by
  unfold dumpScalar
  split
  · intro heq
    have : '[' ∈ s := by rw [heq]; exact List.mem_cons_self _ _
    exact (scalar_chars h '[' this).2.2.2.2 rfl
  · intro heq
    have : SQ = '[' := by
      have := congrArg List.head? heq
      simpa using this
    exact absurd this (by decide)

lemma parseScalar_dump {s : List Char} (h : scalarSafe s = true) :
    parseScalar (dumpScalar s) = some s := by
  by_cases hp : plainSafe s = true
  · have hd : dumpScalar s = s := by rw [dumpScalar, if_pos hp]
    rw [hd]
    rcases s with _ | ⟨c, rest⟩
    · exact absurd hp (by decide)
    · have hcne : (c == SQ) = false := by
        have := (scalar_chars h c (List.mem_cons_self _ _)).1
        simpa using this
      have hct : (c :: rest).contains SQ = false := scalar_contains_SQ h
      simp only [parseScalar]
      rw [hcne, hct]
      simp
  · have hd : dumpScalar s = SQ :: (s ++ [SQ]) := by
      rw [dumpScalar, if_neg hp]
    rw [hd]
    simp only [parseScalar]
    rw [List.getLast?_concat, List.dropLast_concat, scalar_contains_SQ h]
    simp

lemma splitColon_key : ∀ (k rest : List Char), ':' ∉ k →
    splitColon (k ++ ':' :: rest) = some (k, rest) := by
  intro k
  induction k with
  | nil =>
    intro rest _
    simp [splitColon]
  | cons c k ih =>
    intro rest hc
    have hcne : c ≠ ':' := fun heq => hc (heq ▸ List.mem_cons_self _ _)
    have hr := ih rest (fun hmem => hc (List.mem_cons_of_mem _ hmem))
    simp only [List.cons_append, splitColon, List.append_eq]
    rw [if_neg (by simpa using hcne), hr]

lemma splitLines_ne_nil : ∀ l : List Char, splitLines l ≠ [] := by
  intro l
  rcases l with _ | ⟨c, rest⟩
  · simp [splitLines]
  · by_cases hc : (c == '\n') = true
    · simp [splitLines, hc]
    · rcases hsp : splitLines rest with _ | ⟨a, as⟩
      · simp [splitLines, hc, hsp]
      · simp [splitLines, hc, hsp]

lemma splitLines_append : ∀ (a b : List Char), '\n' ∉ a →
    splitLines (a ++ '\n' :: b) = a :: splitLines b := by
  intro a
  induction a with
  | nil =>
    intro b _
    simp [splitLines]
  | cons c a ih =>
    intro b hnl
    have hcne : c ≠ '\n' := fun heq => hnl (heq ▸ List.mem_cons_self _ _)
    have hrec := ih b (fun hmem => hnl (List.mem_cons_of_mem _ hmem))
    simp only [List.cons_append, splitLines, List.append_eq]
    rw [if_neg (by simpa using hcne), hrec]

/-- No two adjacent dash characters occur in the text. -/
def noDoubleDash : List Char → Bool
  | c1 :: c2 :: rest => !(c1 == '-' && c2 == '-') && noDoubleDash (c2 :: rest)
  | _ => true

lemma noDoubleDash_tail {c : Char} {l : List Char}
    (h : noDoubleDash (c :: l) = true) : noDoubleDash l = true := by
  rcases l with _ | ⟨d, rest⟩
  · rfl
  · exact (Bool.and_eq_true _ _ ▸ h).2

lemma noDoubleDash_of_no_dash : ∀ {l : List Char}, (∀ c ∈ l, c ≠ '-') →
    noDoubleDash l = true := by
  intro l
  induction l with
  | nil => intro _; rfl
  | cons c rest ih =>
    intro h
    rcases rest with _ | ⟨d, r2⟩
    · rfl
    · have h1 : c ≠ '-' := h c (List.mem_cons_self _ _)
      have h2 := ih (fun x hx => h x (List.mem_cons_of_mem _ hx))
      simp only [noDoubleDash, Bool.and_eq_true]
      exact ⟨by simp [h1], h2⟩

lemma noDoubleDash_append : ∀ {a b : List Char}, noDoubleDash a = true →
    noDoubleDash b = true → (a.getLast? = some '-' → b.head? ≠ some '-') →
    noDoubleDash (a ++ b) = true := by
  intro a
  induction a with
  | nil => intro b _ hb _; exact hb
  | cons c a ih =>
    intro b ha hb hbound
    rcases a with _ | ⟨d, a2⟩
    · rcases b with _ | ⟨e, b2⟩
      · exact ha
      · simp only [List.nil_append, List.cons_append, noDoubleDash,
          Bool.and_eq_true]
        refine ⟨?_, hb⟩
        by_cases hcd : c = '-'
        · have := hbound (by rw [hcd]; rfl)
          have he : e ≠ '-' := fun heq => this (by rw [heq]; rfl)
          simp [he]
        · simp [hcd]
    · simp only [List.cons_append, noDoubleDash, Bool.and_eq_true]
      constructor
      · exact (Bool.and_eq_true _ _ ▸ ha).1
      · have ha2 : noDoubleDash (d :: a2) = true := noDoubleDash_tail ha
        have hbound2 : (d :: a2).getLast? = some '-' → b.head? ≠ some '-' := by
          intro hl
          exact hbound (by rw [← hl, List.getLast?_cons_cons])
        have := ih ha2 hb hbound2
        simpa using this

lemma findSplit_after : ∀ (a b : List Char),
    noDoubleDash (a ++ ['-']) = true →
    findSplit ['-', '-', '-'] (a ++ '-' :: '-' :: '-' :: b) = some (a, b) := by
  intro a
  induction a with
  | nil =>
    intro b _
    simp [findSplit, List.isPrefixOf]
  | cons c a ih =>
    intro b hno
    have hpre : (['-', '-', '-'].isPrefixOf
        (c :: (a ++ '-' :: '-' :: '-' :: b))) = false := by
      rcases a with _ | ⟨d, a2⟩
      · by_cases hc : c = '-'
        · subst hc
          simp only [List.nil_append] at hno
          exact absurd hno (by decide)
        · have hb : (('-' : Char) == c) = false :=
            beq_eq_false_iff_ne.mpr (Ne.symm hc)
          simp [List.isPrefixOf_cons₂, hb]
      · by_cases hc : c = '-'
        · by_cases hd : d = '-'
          · subst hc hd
            simp only [List.cons_append] at hno
            have h1 := (Bool.and_eq_true _ _ ▸ hno).1
            exact absurd h1 (by decide)
          · have hb : (('-' : Char) == d) = false :=
              beq_eq_false_iff_ne.mpr (Ne.symm hd)
            simp [List.isPrefixOf_cons₂, hb]
        · have hb : (('-' : Char) == c) = false :=
            beq_eq_false_iff_ne.mpr (Ne.symm hc)
          simp [List.isPrefixOf_cons₂, hb]
    have hno2 : noDoubleDash (a ++ ['-']) = true := by
      have : noDoubleDash (c :: (a ++ ['-'])) = true := by
        simpa using hno
      exact noDoubleDash_tail this
    have hrec := ih b hno2
    simp only [List.cons_append, findSplit, List.append_eq]
    rw [hpre]
    simp only [Bool.false_eq_true, if_false]
    rw [hrec]

lemma dumpKV_last (k v : List Char) : (dumpKV k v).getLast? = some '\n' := by
  unfold dumpKV
  rw [show k ++ ':' :: ' ' :: (dumpScalar v ++ ['\n']) =
      (k ++ ':' :: ' ' :: dumpScalar v) ++ ['\n'] by simp, List.getLast?_concat]

lemma dumpKV_noDD (k v : List Char) (hk : ∀ c ∈ k, c ≠ '-')
    (hv : scalarSafe v = true) : noDoubleDash (dumpKV k v) = true := by
  apply noDoubleDash_of_no_dash
  intro c hc
  unfold dumpKV at hc
  rcases List.mem_append.mp hc with h | h
  · exact hk c h
  · rcases List.mem_cons.mp h with h2 | h2
    · subst h2; decide
    · rcases List.mem_cons.mp h2 with h3 | h3
      · subst h3; decide
      · rcases List.mem_append.mp h3 with h4 | h4
        · exact (dumpScalar_chars hv c h4).2
        · rw [List.mem_singleton.mp h4]; decide

lemma itemLine_noDD {i : List Char} (hi : scalarSafe i = true) :
    noDoubleDash ('-' :: ' ' :: (dumpScalar i ++ ['\n'])) = true := by
  have htail : noDoubleDash (' ' :: (dumpScalar i ++ ['\n'])) = true := by
    apply noDoubleDash_of_no_dash
    intro c hc
    rcases List.mem_cons.mp hc with h | h
    · subst h; decide
    · rcases List.mem_append.mp h with h2 | h2
      · exact (dumpScalar_chars hi c h2).2
      · rw [List.mem_singleton.mp h2]; decide
  simp only [noDoubleDash, Bool.and_eq_true]
  exact ⟨by decide, htail⟩

lemma itemLine_last (i : List Char) :
    ('-' :: ' ' :: (dumpScalar i ++ ['\n'])).getLast? = some '\n' := by
  rw [show '-' :: ' ' :: (dumpScalar i ++ ['\n']) =
      ('-' :: ' ' :: dumpScalar i) ++ ['\n'] by simp, List.getLast?_concat]

lemma itemsFlat_noDD {items : List (List Char)}
    (h : ∀ i ∈ items, scalarSafe i = true) :
    noDoubleDash
      ((items.map fun i => '-' :: ' ' :: (dumpScalar i ++ ['\n'])).flatten) = true ∧
    ((items.map fun i =>
      '-' :: ' ' :: (dumpScalar i ++ ['\n'])).flatten).getLast? ≠ some '-' := by
  induction items with
  | nil => exact ⟨rfl, by simp⟩
  | cons i irest ih =>
    obtain ⟨ih1, ih2⟩ := ih (fun x hx => h x (List.mem_cons_of_mem _ hx))
    have hiS := h i (List.mem_cons_self _ _)
    constructor
    · simp only [List.map_cons, List.flatten_cons]
      apply noDoubleDash_append (itemLine_noDD hiS) ih1
      intro hl
      rw [itemLine_last] at hl
      exact absurd hl (by decide)
    · simp only [List.map_cons, List.flatten_cons]
      rw [List.getLast?_append]
      rcases hfl : ((irest.map fun i =>
          '-' :: ' ' :: (dumpScalar i ++ ['\n'])).flatten).getLast? with _ | c
      · rw [Option.none_or, itemLine_last]
        exact (by decide)
      · rw [Option.or_some]
        rw [hfl] at ih2
        exact ih2

lemma dumpListKV_noDD (k : List Char) (items : List (List Char))
    (hk : ∀ c ∈ k, c ≠ '-') (h : ∀ i ∈ items, scalarSafe i = true) :
    noDoubleDash (dumpListKV k items) = true ∧
      (dumpListKV k items).getLast? ≠ some '-' := by
  rcases items with _ | ⟨i, irest⟩
  · constructor
    · apply noDoubleDash_of_no_dash
      intro c hc
      unfold dumpListKV at hc
      rcases List.mem_append.mp hc with h1 | h1
      · exact hk c h1
      · simp only [List.mem_cons, List.not_mem_nil, or_false] at h1
        rcases h1 with h2 | h2 | h2 | h2 | h2 <;> subst h2 <;> decide
    · unfold dumpListKV
      rw [show k ++ ':' :: ' ' :: '[' :: ']' :: ['\n'] =
          (k ++ [':', ' ', '[', ']']) ++ ['\n'] by simp, List.getLast?_concat]
      exact (by decide)
  · have hflat := itemsFlat_noDD h
    constructor
    · unfold dumpListKV
      rw [show k ++ ':' :: '\n' ::
          ((i :: irest).map fun x => '-' :: ' ' :: (dumpScalar x ++ ['\n'])).flatten =
          (k ++ [':', '\n']) ++
          ((i :: irest).map fun x => '-' :: ' ' :: (dumpScalar x ++ ['\n'])).flatten
          by simp]
      apply noDoubleDash_append ?h1 hflat.1 ?h2
      case h1 =>
        apply noDoubleDash_of_no_dash
        intro c hc
        rcases List.mem_append.mp hc with h1 | h1
        · exact hk c h1
        · simp only [List.mem_cons, List.not_mem_nil, or_false] at h1
          rcases h1 with h2 | h2 <;> subst h2 <;> decide
      case h2 =>
        intro hl
        rw [show k ++ [':', '\n'] = (k ++ [':']) ++ ['\n'] by simp,
          List.getLast?_concat] at hl
        exact absurd hl (by decide)
    · unfold dumpListKV
      rw [show k ++ ':' :: '\n' ::
          ((i :: irest).map fun x => '-' :: ' ' :: (dumpScalar x ++ ['\n'])).flatten =
          (k ++ [':', '\n']) ++
          ((i :: irest).map fun x => '-' :: ' ' :: (dumpScalar x ++ ['\n'])).flatten
          by simp]
      rw [List.getLast?_append]
      rcases hfl : (((i :: irest).map fun x =>
          '-' :: ' ' :: (dumpScalar x ++ ['\n'])).flatten).getLast? with _ | c
      · simp only [List.map_cons, List.flatten_cons] at hfl
        rw [List.getLast?_append] at hfl
        rcases ho : ((irest.map fun x =>
            '-' :: ' ' :: (dumpScalar x ++ ['\n'])).flatten).getLast? with _ | e
        · rw [ho, Option.none_or, itemLine_last] at hfl
          cases hfl
        · rw [ho, Option.or_some] at hfl
          cases hfl
      · rw [Option.or_some]
        rw [hfl] at hflat
        exact hflat.2

lemma dumpMeta_noDD {m : PQMeta} (hm : metaSafe m = true) :
    noDoubleDash (dumpMeta m) = true ∧ (dumpMeta m).getLast? ≠ some '-' := by
  unfold metaSafe at hm
  simp only [Bool.and_eq_true] at hm
  obtain ⟨⟨⟨⟨⟨hn, hc⟩, ht⟩, hd⟩, hds⟩, hv⟩ := hm
  have htl := List.all_eq_true.mp ht
  have hdl := List.all_eq_true.mp hd
  have seg : ∀ (x y : List Char), noDoubleDash x = true → x.getLast? ≠ some '-' →
      noDoubleDash y = true → y.getLast? ≠ some '-' →
      noDoubleDash (x ++ y) = true ∧ (x ++ y).getLast? ≠ some '-' := by
    intro x y hx1 hx2 hy1 hy2
    refine ⟨noDoubleDash_append hx1 hy1 (fun hl => absurd hl hx2), ?_⟩
    rw [List.getLast?_append]
    rcases hyl : y.getLast? with _ | c
    · rw [Option.none_or]; exact hx2
    · rw [Option.or_some]; rw [hyl] at hy2; exact hy2
  have s1 : noDoubleDash (dumpKV "name".toList m.name) = true ∧
      (dumpKV "name".toList m.name).getLast? ≠ some '-' :=
    ⟨dumpKV_noDD _ _ (by decide) hn, by rw [dumpKV_last]; exact (by decide)⟩
  have s2 : noDoubleDash (dumpKV "category".toList m.category) = true ∧
      (dumpKV "category".toList m.category).getLast? ≠ some '-' :=
    ⟨dumpKV_noDD _ _ (by decide) hc, by rw [dumpKV_last]; exact (by decide)⟩
  have s3 := dumpListKV_noDD "tags".toList m.tags (by decide) htl
  have s4 := dumpListKV_noDD "dependencies".toList m.dependencies (by decide) hdl
  have s5 : noDoubleDash (dumpKV "description".toList m.description) = true ∧
      (dumpKV "description".toList m.description).getLast? ≠ some '-' :=
    ⟨dumpKV_noDD _ _ (by decide) hds, by rw [dumpKV_last]; exact (by decide)⟩
  have s6 : noDoubleDash (dumpKV "version".toList m.version) = true ∧
      (dumpKV "version".toList m.version).getLast? ≠ some '-' :=
    ⟨dumpKV_noDD _ _ (by decide) hv, by rw [dumpKV_last]; exact (by decide)⟩
  have t12 := seg _ _ s1.1 s1.2 s2.1 s2.2
  have t3 := seg _ _ t12.1 t12.2 s3.1 s3.2
  have t4 := seg _ _ t3.1 t3.2 s4.1 s4.2
  have t5 := seg _ _ t4.1 t4.2 s5.1 s5.2
  have t6 := seg _ _ t5.1 t5.2 s6.1 s6.2
  unfold dumpMeta
  constructor
  · have := t6.1
    simpa [List.append_assoc] using this
  · have := t6.2
    simpa [List.append_assoc] using this

lemma takeListItems_exact : ∀ (items ls : List (List Char)),
    (∀ i ∈ items, (['-', ' '].isPrefixOf i) = true) →
    (∀ l0, ls.head? = some l0 → (['-', ' '].isPrefixOf l0) = false) →
    takeListItems (items ++ ls) = (items, ls) := by
  intro items
  induction items with
  | nil =>
    intro ls _ hstop
    rcases ls with _ | ⟨l0, ls2⟩
    · rfl
    · have := hstop l0 rfl
      simp only [List.nil_append, takeListItems]
      rw [this]
      simp
  | cons i items ih =>
    intro ls hitems hstop
    have hi := hitems i (List.mem_cons_self _ _)
    have hrec := ih ls (fun x hx => hitems x (List.mem_cons_of_mem _ hx)) hstop
    simp only [List.cons_append, takeListItems, List.append_eq]
    rw [hi]
    simp only [if_true]
    rw [hrec]

lemma parseItems_dump : ∀ (items : List (List Char)),
    (∀ i ∈ items, scalarSafe i = true) →
    parseItems (items.map fun i => '-' :: ' ' :: dumpScalar i) = some items := by
  intro items
  induction items with
  | nil => intro _; rfl
  | cons i items ih =>
    intro h
    have hi : parseItem ('-' :: ' ' :: dumpScalar i) = some i := by
      unfold parseItem
      rw [if_pos (by simp [List.isPrefixOf])]
      simpa using parseScalar_dump (h i (List.mem_cons_self _ _))
    have hrec := ih (fun x hx => h x (List.mem_cons_of_mem _ hx))
    simp only [List.map_cons, parseItems, hi, hrec]

lemma line_notblank (k rest : List Char) :
    ((k ++ ':' :: rest).all isPySpace) = false := by
  rw [← Bool.not_eq_true]
  intro hall
  have := List.all_eq_true.mp hall ':'
    (List.mem_append_right _ (List.mem_cons_self _ _))
  exact absurd this (by decide)

lemma parseY_step_blank {n : Nat} {ls : List (List Char)}
    {t : List (List Char × YVal)} (h : parseYLines n ls = some t)
    (l : List Char) (hb : l.all isPySpace = true) :
    parseYLines (n + 1) (l :: ls) = some t := by
  simp only [parseYLines, hb, if_true]
  exact h

lemma parseY_step_scalar {n : Nat} {ls : List (List Char)}
    {t : List (List Char × YVal)} (h : parseYLines n ls = some t)
    (k v : List Char) (hk1 : k.isEmpty = false)
    (hk2 : (k.all fun c => isWordChar c) = true) (hk3 : ':' ∉ k)
    (hv : scalarSafe v = true) :
    parseYLines (n + 1) ((k ++ ':' :: ' ' :: dumpScalar v) :: ls) =
      some ((k, YVal.str v) :: t) := by
  simp only [parseYLines, line_notblank k (' ' :: dumpScalar v)]
  rw [splitColon_key k (' ' :: dumpScalar v) hk3]
  simp only [hk1, hk2, Bool.not_true, Bool.false_eq_true, if_false,
    Bool.or_self, List.isEmpty_cons, List.head?_cons, List.drop_succ_cons,
    List.drop_zero]
  rw [if_pos trivial, if_neg (by simp [dumpScalar_ne_brackets hv]),
    parseScalar_dump hv, h]

lemma parseY_step_elist {n : Nat} {ls : List (List Char)}
    {t : List (List Char × YVal)} (h : parseYLines n ls = some t)
    (k : List Char) (hk1 : k.isEmpty = false)
    (hk2 : (k.all fun c => isWordChar c) = true) (hk3 : ':' ∉ k) :
    parseYLines (n + 1) ((k ++ [':', ' ', '[', ']']) :: ls) =
      some ((k, YVal.list []) :: t) := by
  have hline : k ++ [':', ' ', '[', ']'] = k ++ ':' :: ' ' :: '[' :: ']' :: [] := rfl
  rw [hline]
  simp only [parseYLines, line_notblank k (' ' :: '[' :: ']' :: [])]
  rw [splitColon_key k (' ' :: '[' :: ']' :: []) hk3]
  simp only [hk1, hk2, Bool.not_true, Bool.false_eq_true, if_false,
    Bool.or_self, List.isEmpty_cons, List.head?_cons, List.drop_succ_cons,
    List.drop_zero]
  rw [if_pos trivial, h]
  simp

lemma parseY_step_list {n : Nat} {ls : List (List Char)}
    {t : List (List Char × YVal)} (h : parseYLines n ls = some t)
    (k : List Char) (hk1 : k.isEmpty = false)
    (hk2 : (k.all fun c => isWordChar c) = true) (hk3 : ':' ∉ k)
    (i : List Char) (irest : List (List Char))
    (hall : ∀ x ∈ i :: irest, scalarSafe x = true)
    (hstop : ∀ l0, ls.head? = some l0 → (['-', ' '].isPrefixOf l0) = false) :
    parseYLines (n + 1) ((k ++ [':']) ::
        (((i :: irest).map fun x => '-' :: ' ' :: dumpScalar x) ++ ls)) =
      some ((k, YVal.list (i :: irest)) :: t) := by
  have hline : k ++ [':'] = k ++ ':' :: [] := rfl
  rw [hline]
  simp only [parseYLines, line_notblank k []]
  rw [splitColon_key k [] hk3]
  simp only [hk1, hk2, Bool.not_true, Bool.false_eq_true, if_false,
    Bool.or_self, List.isEmpty_nil, if_true]
  rw [takeListItems_exact _ _ (by
    intro x hx
    obtain ⟨y, hy, hxy⟩ := List.mem_map.mp hx
    rw [← hxy]
    simp [List.isPrefixOf]) hstop]
  simp only [List.map_cons]
  rw [show parseItems (('-' :: ' ' :: dumpScalar i) ::
      (irest.map fun x => '-' :: ' ' :: dumpScalar x)) =
      some (i :: irest) by
    have := parseItems_dump (i :: irest) hall
    simpa only [List.map_cons] using this]
  rw [h]

lemma parseYLines_nil (k : Nat) (hk : 1 ≤ k) :
    parseYLines k [] = some [] := by
  rcases k with _ | k
  · omega
  · rfl

lemma kvline_no_nl (k v : List Char) (hknl : '\n' ∉ k)
    (hv : scalarSafe v = true) :
    '\n' ∉ (k ++ ':' :: ' ' :: dumpScalar v) := by
  intro hmem
  rcases List.mem_append.mp hmem with h | h
  · exact hknl h
  · rcases List.mem_cons.mp h with h2 | h2
    · exact absurd h2 (by decide)
    · rcases List.mem_cons.mp h2 with h3 | h3
      · exact absurd h3 (by decide)
      · exact (dumpScalar_chars hv _ h3).1 rfl

lemma not_item_line {k X : List Char} (c0 : Char) (hh : k.head? = some c0)
    (hne : c0 ≠ '-') : (['-', ' '].isPrefixOf (k ++ X)) = false := by
  rcases k with _ | ⟨c, rest⟩
  · cases hh
  · have hc : c = c0 := by
      simpa using hh
    subst hc
    simp [List.isPrefixOf_cons₂, beq_eq_false_iff_ne.mpr (Ne.symm hne)]

lemma splitLines_dumpKV (k v : List Char) (rest : List Char)
    (hknl : '\n' ∉ k) (hv : scalarSafe v = true) :
    splitLines (dumpKV k v ++ rest) =
      (k ++ ':' :: ' ' :: dumpScalar v) :: splitLines rest := by
  rw [show dumpKV k v ++ rest =
      (k ++ ':' :: ' ' :: dumpScalar v) ++ '\n' :: rest by simp [dumpKV],
    splitLines_append _ _ (kvline_no_nl k v hknl hv)]

lemma splitLines_dumpListKV_nil (k : List Char) (rest : List Char)
    (hknl : '\n' ∉ k) :
    splitLines (dumpListKV k [] ++ rest) =
      (k ++ [':', ' ', '[', ']']) :: splitLines rest := by
  rw [show dumpListKV k [] ++ rest =
      (k ++ [':', ' ', '[', ']']) ++ '\n' :: rest by simp [dumpListKV],
    splitLines_append]
  intro hmem
  rcases List.mem_append.mp hmem with h | h
  · exact hknl h
  · simp only [List.mem_cons, List.not_mem_nil, or_false] at h
    rcases h with h | h | h | h <;> exact absurd h (by decide)

lemma splitLines_items : ∀ (items : List (List Char)) (rest : List Char),
    (∀ x ∈ items, scalarSafe x = true) →
    splitLines
        ((items.map fun x => '-' :: ' ' :: (dumpScalar x ++ ['\n'])).flatten ++ rest) =
      (items.map fun x => '-' :: ' ' :: dumpScalar x) ++ splitLines rest := by
  intro items
  induction items with
  | nil =>
    intro rest _
    simp
  | cons i irest ih =>
    intro rest hall
    have hiS := hall i (List.mem_cons_self _ _)
    have hnl : '\n' ∉ ('-' :: ' ' :: dumpScalar i) := by
      intro hmem
      rcases List.mem_cons.mp hmem with h | h
      · exact absurd h (by decide)
      · rcases List.mem_cons.mp h with h2 | h2
        · exact absurd h2 (by decide)
        · exact (dumpScalar_chars hiS _ h2).1 rfl
    simp only [List.map_cons, List.flatten_cons, List.append_assoc]
    rw [show ('-' :: ' ' :: (dumpScalar i ++ ['\n'])) ++
        ((irest.map fun x => '-' :: ' ' :: (dumpScalar x ++ ['\n'])).flatten ++ rest) =
        ('-' :: ' ' :: dumpScalar i) ++ '\n' ::
        ((irest.map fun x => '-' :: ' ' :: (dumpScalar x ++ ['\n'])).flatten ++ rest)
      by simp,
      splitLines_append _ _ hnl,
      ih rest (fun x hx => hall x (List.mem_cons_of_mem _ hx))]
    rfl

lemma splitLines_dumpListKV_cons (k i : List Char) (irest : List (List Char))
    (rest : List Char) (hknl : '\n' ∉ k)
    (hall : ∀ x ∈ i :: irest, scalarSafe x = true) :
    splitLines (dumpListKV k (i :: irest) ++ rest) =
      (k ++ [':']) ::
        (((i :: irest).map fun x => '-' :: ' ' :: dumpScalar x) ++
          splitLines rest) := by
  rw [show dumpListKV k (i :: irest) ++ rest = (k ++ [':']) ++ '\n' ::
      (((i :: irest).map fun x => '-' :: ' ' :: (dumpScalar x ++ ['\n'])).flatten ++
        rest) by simp [dumpListKV],
    splitLines_append, splitLines_items _ _ hall]
  intro hmem
  rcases List.mem_append.mp hmem with h | h
  · exact hknl h
  · simp only [List.mem_cons, List.not_mem_nil, or_false] at h
    exact absurd h (by decide)

lemma parseY_kv_chain {n : Nat} {t : List (List Char × YVal)}
    (k v rest : List Char) (hk1 : k.isEmpty = false)
    (hk2 : (k.all fun c => isWordChar c) = true) (hk3 : ':' ∉ k)
    (hknl : '\n' ∉ k) (hv : scalarSafe v = true)
    (h : parseYLines n (splitLines rest) = some t) :
    parseYLines (n + 1) (splitLines (dumpKV k v ++ rest)) =
      some ((k, YVal.str v) :: t) := by
  rw [splitLines_dumpKV k v rest hknl hv]
  exact parseY_step_scalar h k v hk1 hk2 hk3 hv

lemma parseY_listKV_chain {n : Nat} {t : List (List Char × YVal)}
    (k : List Char) (items : List (List Char)) (rest : List Char)
    (hk1 : k.isEmpty = false) (hk2 : (k.all fun c => isWordChar c) = true)
    (hk3 : ':' ∉ k) (hknl : '\n' ∉ k)
    (hall : ∀ x ∈ items, scalarSafe x = true)
    (h : parseYLines n (splitLines rest) = some t)
    (hstop : ∀ l0, (splitLines rest).head? = some l0 →
      (['-', ' '].isPrefixOf l0) = false) :
    parseYLines (n + 1) (splitLines (dumpListKV k items ++ rest)) =
      some ((k, YVal.list items) :: t) := by
  rcases items with _ | ⟨i, irest⟩
  · rw [splitLines_dumpListKV_nil k rest hknl]
    exact parseY_step_elist h k hk1 hk2 hk3
  · rw [splitLines_dumpListKV_cons k i irest rest hknl hall]
    exact parseY_step_list h k hk1 hk2 hk3 i irest hall hstop

lemma from_to_roundtrip (fallback : List Char) (m : PQMeta) (body : List Char)
    (hsafe : metaSafe m = true)
    (hn : cleanupString m.name = m.name)
    (hc : cleanupString m.category = m.category)
    (hds : cleanupString m.description = m.description)
    (hvr : cleanupString m.version = m.version)
    (hbody : body.head? ≠ some '\n') :
    from_file_content fallback (to_file_content m body) = some (m, body) := by
  unfold metaSafe at hsafe
  simp only [Bool.and_eq_true] at hsafe
  obtain ⟨⟨⟨⟨⟨hsn, hscat⟩, hst⟩, hsd⟩, hsds⟩, hsv⟩ := hsafe
  have hstl := List.all_eq_true.mp hst
  have hsdl := List.all_eq_true.mp hsd
  -- the parse chain over the dumped lines
  have c8 : ∀ n : Nat, parseYLines (n + 9) (splitLines ('\n' :: dumpMeta m)) =
      some [("name".toList, YVal.str m.name),
        ("category".toList, YVal.str m.category),
        ("tags".toList, YVal.list m.tags),
        ("dependencies".toList, YVal.list m.dependencies),
        ("description".toList, YVal.str m.description),
        ("version".toList, YVal.str m.version)] := by
    intro n
    have c0 : parseYLines (n + 1) [] = some [] := parseYLines_nil _ (by omega)
    have c1 : parseYLines (n + 1 + 1) (splitLines []) = some [] := by
      rw [show splitLines [] = [[]] from rfl]
      exact parseY_step_blank c0 [] rfl
    have c2 := parseY_kv_chain "version".toList m.version [] (by decide)
      (by decide) (by decide) (by decide) hsv c1
    have c3 := parseY_kv_chain "description".toList m.description
      (dumpKV "version".toList m.version ++ []) (by decide) (by decide)
      (by decide) (by decide) hsds c2
    have hstop5 : ∀ l0, (splitLines (dumpKV "description".toList m.description ++
        (dumpKV "version".toList m.version ++ []))).head? = some l0 →
        (['-', ' '].isPrefixOf l0) = false := by
      intro l0 hl0
      rw [splitLines_dumpKV _ _ _ (by decide) hsds] at hl0
      have heq : ("description".toList ++
          ':' :: ' ' :: dumpScalar m.description) = l0 := by
        simpa using hl0
      rw [← heq]
      exact not_item_line 'd' (by decide) (by decide)
    have c4 := parseY_listKV_chain "dependencies".toList m.dependencies
      (dumpKV "description".toList m.description ++
        (dumpKV "version".toList m.version ++ []))
      (by decide) (by decide) (by decide) (by decide) hsdl c3 hstop5
    have hstop4 : ∀ l0,
        (splitLines (dumpListKV "dependencies".toList m.dependencies ++
          (dumpKV "description".toList m.description ++
            (dumpKV "version".toList m.version ++ [])))).head? = some l0 →
        (['-', ' '].isPrefixOf l0) = false := by
      intro l0 hl0
      rcases hdep : m.dependencies with _ | ⟨d0, drest⟩
      · rw [hdep, splitLines_dumpListKV_nil _ _ (by decide)] at hl0
        have heq : ("dependencies".toList ++ [':', ' ', '[', ']']) = l0 := by
          simpa using hl0
        rw [← heq]
        exact not_item_line 'd' (by decide) (by decide)
      · rw [hdep, splitLines_dumpListKV_cons _ _ _ _ (by decide)
          (by rw [← hdep]; exact hsdl)] at hl0
        have heq : ("dependencies".toList ++ [':']) = l0 := by
          simpa using hl0
        rw [← heq]
        exact not_item_line 'd' (by decide) (by decide)
    have c5 := parseY_listKV_chain "tags".toList m.tags
      (dumpListKV "dependencies".toList m.dependencies ++
        (dumpKV "description".toList m.description ++
          (dumpKV "version".toList m.version ++ [])))
      (by decide) (by decide) (by decide) (by decide) hstl c4 hstop4
    have c6 := parseY_kv_chain "category".toList m.category
      (dumpListKV "tags".toList m.tags ++
        (dumpListKV "dependencies".toList m.dependencies ++
          (dumpKV "description".toList m.description ++
            (dumpKV "version".toList m.version ++ []))))
      (by decide) (by decide) (by decide) (by decide) hscat c5
    have c7 := parseY_kv_chain "name".toList m.name
      (dumpKV "category".toList m.category ++
        (dumpListKV "tags".toList m.tags ++
          (dumpListKV "dependencies".toList m.dependencies ++
            (dumpKV "description".toList m.description ++
              (dumpKV "version".toList m.version ++ [])))))
      (by decide) (by decide) (by decide) (by decide) hsn c6
    have hdm : dumpMeta m =
        dumpKV "name".toList m.name ++
        (dumpKV "category".toList m.category ++
          (dumpListKV "tags".toList m.tags ++
            (dumpListKV "dependencies".toList m.dependencies ++
              (dumpKV "description".toList m.description ++
                (dumpKV "version".toList m.version ++ []))))) := by
      simp [dumpMeta, List.append_assoc]
    rw [show n + 9 = n + 1 + 1 + 1 + 1 + 1 + 1 + 1 + 1 + 1 from by omega]
    rw [show splitLines ('\n' :: dumpMeta m) = [] :: splitLines (dumpMeta m)
        from by simp [splitLines]]
    refine parseY_step_blank ?_ [] rfl
    rw [hdm]
    exact c7
  -- the metadata record reconstructed from the dict
  have hmk : mkMeta fallback
      [("name".toList, YVal.str m.name),
        ("category".toList, YVal.str m.category),
        ("tags".toList, YVal.list m.tags),
        ("dependencies".toList, YVal.list m.dependencies),
        ("description".toList, YVal.str m.description),
        ("version".toList, YVal.str m.version)] = some m := by
    show (match (match some (YVal.str m.name) with
           | none => some (cleanupString fallback)
           | some (YVal.str s) => some (cleanupString s)
           | some (YVal.list _) => none),
          some (cleanupString m.category), some m.tags, some m.dependencies,
          some (cleanupString m.description), some (cleanupString m.version) with
      | some nm, some cat, some tg, some dp, some ds2, some vr2 =>
        some ⟨nm, cat, tg, dp, ds2, vr2⟩
      | _, _, _, _, _, _ => none) = some m
    simp only [hn, hc, hds, hvr]
  -- the body after stripping
  have hbdrop : ('\n' :: '\n' :: body).dropWhile (fun c => c == '\n') = body := by
    rcases body with _ | ⟨b0, brest⟩
    · rfl
    · have hb0 : (b0 == '\n') = false := by
        have : b0 ≠ '\n' := fun heq => hbody (by rw [heq]; rfl)
        simpa using this
      simp [List.dropWhile, hb0]
  -- assemble
  simp only [from_file_content, to_file_content]
  rw [show (('-' :: '-' :: '-' :: '\n' ::
      (dumpMeta m ++ ('-' :: '-' :: '-' :: '\n' :: '\n' :: body))).dropWhile
        isPySpace) = '-' :: '-' :: '-' :: '\n' ::
      (dumpMeta m ++ ('-' :: '-' :: '-' :: '\n' :: '\n' :: body))
    from by rw [List.dropWhile_cons, if_neg (by decide)]]
  rw [if_pos (by simp [List.isPrefixOf])]
  rw [show findSplit ['-', '-', '-'] ('-' :: '-' :: '-' :: '\n' ::
      (dumpMeta m ++ ('-' :: '-' :: '-' :: '\n' :: '\n' :: body))) =
      some ([], '\n' :: (dumpMeta m ++ ('-' :: '-' :: '-' :: '\n' :: '\n' :: body)))
    from by simp [findSplit, List.isPrefixOf]]
  have hnd := dumpMeta_noDD (m := m) (by
    unfold metaSafe
    simp only [Bool.and_eq_true]
    exact ⟨⟨⟨⟨⟨hsn, hscat⟩, hst⟩, hsd⟩, hsds⟩, hsv⟩)
  have hsplit2 : findSplit ['-', '-', '-']
      ('\n' :: (dumpMeta m ++ ('-' :: '-' :: '-' :: '\n' :: '\n' :: body))) =
      some ('\n' :: dumpMeta m, '\n' :: '\n' :: body) := by
    rw [show '\n' :: (dumpMeta m ++ ('-' :: '-' :: '-' :: '\n' :: '\n' :: body)) =
        ('\n' :: dumpMeta m) ++ '-' :: '-' :: '-' :: ('\n' :: '\n' :: body)
      from by simp]
    apply findSplit_after
    apply noDoubleDash_append (by
      have := hnd.1
      rcases hdm2 : dumpMeta m with _ | ⟨c, rest⟩
      · rfl
      · rw [hdm2] at this
        simp only [noDoubleDash, Bool.and_eq_true]
        refine ⟨?_, this⟩
        rw [show (('\n' : Char) == '-') = false from by decide]
        simp) (by rfl)
    intro hl
    rw [show ('\n' :: dumpMeta m).getLast? = (dumpMeta m).getLast?.or (some '\n')
      from by rw [show ('\n' :: dumpMeta m) = ['\n'] ++ dumpMeta m from rfl,
        List.getLast?_append]; rfl] at hl
    rcases hg : (dumpMeta m).getLast? with _ | c
    · rw [hg, Option.none_or] at hl
      exact absurd hl (by decide)
    · rw [hg, Option.or_some] at hl
      rw [hg] at hnd
      exact absurd hl hnd.2
  dsimp only
  rw [hsplit2]
  dsimp only
  rw [c8 (splitLines ('\n' :: dumpMeta m)).length]
  dsimp only
  rw [hmk, hbdrop]

/-- C4 counterexample: a script whose body starts with a newline does not
round-trip: to_file_content inserts a blank separator line and the parser
strips all leading newlines of the third split part
(parts[2].lstrip("\n")), so the body comes back without its leading
newline and the parsed script differs from the original. -/
theorem script_roundtrip_counterexample :
    from_file_content "N".toList
        (to_file_content
          ⟨"N".toList, "Uncategorized".toList, [], [], [], "1.0".toList⟩
          ('\n' :: "X".toList)) =
      some (⟨"N".toList, "Uncategorized".toList, [], [], [], "1.0".toList⟩,
        "X".toList) ∧
    ('\n' :: "X".toList) ≠ "X".toList :=
  ⟨rfl, by decide⟩

/-- C4 amended: for every script whose metadata fields are fixed points
of the cleanup validator and lie in the modelled yaml-safe subset, and
whose body does not start with a newline, parsing the serialized file
content back yields an equal script: name, category, tags, dependencies,
description, version and body are all preserved. -/
theorem script_roundtrip (fallback : List Char) (m : PQMeta) (body : List Char)
    (hsafe : metaSafe m = true)
    (hname2 : cleanupString m.name = m.name)
    (hcat : cleanupString m.category = m.category)
    (hdesc : cleanupString m.description = m.description)
    (hver : cleanupString m.version = m.version)
    (hbody : body.head? ≠ some '\n') :
    from_file_content fallback (to_file_content m body) = some (m, body) :=
  from_to_roundtrip fallback m body hsafe hname2 hcat hdesc hver hbody

/-- C4 witness: the round trip applied to a concrete script with tags,
dependencies, a description, a quoted version and a nonempty body. -/
theorem script_roundtrip_witness :
    from_file_content "fallback".toList
        (to_file_content
          ⟨"MyQuery".toList, "Utils".toList, ["a".toList, "b".toList],
            ["Dep1".toList], "does things".toList, "1.0".toList⟩
          "let x = 1".toList) =
      some (⟨"MyQuery".toList, "Utils".toList, ["a".toList, "b".toList],
        ["Dep1".toList], "does things".toList, "1.0".toList⟩,
        "let x = 1".toList) :=
  script_roundtrip "fallback".toList
    ⟨"MyQuery".toList, "Utils".toList, ["a".toList, "b".toList],
      ["Dep1".toList], "does things".toList, "1.0".toList⟩
    "let x = 1".toList (by decide) (by decide) (by decide) (by decide)
    (by decide) (by decide)

/-- The slice of PowerQueryMetadata that PQFileStore's indexing and
delete_script consult: name, category (the index sort key) and the
absolute file path. -/
structure StoreMeta where
  name : List Char
  category : List Char
  path : List Char
deriving DecidableEq, Repr

/-- The observable state of a PQFileStore: the in-memory index cache and
its load time, the index file on disk (presence, mtime and parsed
content; well-formed JSON assumed, and getmtime assumed to succeed when
the file exists), and the .pq files on disk keyed by path. -/
structure FileStoreState where
  index : List (List Char × StoreMeta)
  indexLoadTime : Nat
  indexFileExists : Bool
  indexFileMtime : Nat
  indexFileData : List StoreMeta
  files : List (List Char × StoreMeta)
deriving DecidableEq, Repr

/-- PQFileStore.is_index_stale: empty cache, missing index file, or an
index file newer than the cached load time. -/
def is_index_stale (st : FileStoreState) : Bool :=
  st.index.isEmpty || !st.indexFileExists ||
    decide (st.indexLoadTime < st.indexFileMtime)

/-- Python dict insertion (last writer wins) for the index cache. -/
def dictInsert (idx : List (List Char × StoreMeta)) (k : List Char)
    (v : StoreMeta) : List (List Char × StoreMeta) :=
  if idx.any (fun kv => kv.1 == k) then
    idx.map (fun kv => if kv.1 == k then (k, v) else kv)
  else idx ++ [(k, v)]

/-- The loop of load_index that fills the cache from the parsed index
file, keyed by lowercased name, and records the load time (now models
time.time()). -/
def loadFromData (now : Nat) (st : FileStoreState) : FileStoreState :=
  { st with
    index := st.indexFileData.foldl (fun ix m => dictInsert ix (pyLower m.name) m) []
    indexLoadTime := now }

/-- The index sort key of build_index:
(r["category"].lower(), r["name"].lower()), compared lexicographically. -/
def metaKeyLe (a b : StoreMeta) : Bool :=
  if pyLower a.category = pyLower b.category then
    lexLe (pyLower a.name) (pyLower b.name)
  else lexLe (pyLower a.category) (pyLower b.category)

/-- PQFileStore.build_index: collect the metadata of the .pq files on
disk, sort by (category.lower(), name.lower()) (Python's stable sort
modelled by insertion sort), write the index file, then reload the cache
(load_index(force_reload=True) with the file just written reduces to the
cache-filling loop). -/
def build_index (now : Nat) (st : FileStoreState) : FileStoreState :=
  let metas := List.insertionSort (fun a b => metaKeyLe a b = true)
    (st.files.map (fun f => f.2))
  loadFromData now
    { st with
      indexFileExists := true
      indexFileMtime := now
      indexFileData := metas
      index := [] }

/-- PQFileStore.load_index: reload when forced or stale (a missing index
file triggers build_index), otherwise keep the cache as is. -/
def load_index (now : Nat) (force : Bool) (st : FileStoreState) :
    FileStoreState :=
  if force || is_index_stale st then
    if !st.indexFileExists then build_index now { st with index := [] }
    else loadFromData now { st with index := [] }
  else st

/-- The dict lookup self._index.get(name.lower()). -/
def store_lookup (idx : List (List Char × StoreMeta)) (n : List Char) :
    Option StoreMeta :=
  (idx.find? (fun kv => kv.1 == pyLower n)).map (fun kv => kv.2)

/-- PQFileStore.get_metadata_by_name: refresh the cache, then the
case-insensitive dict lookup. -/
def fs_get_metadata_by_name (now : Nat) (name : List Char)
    (st : FileStoreState) : Option StoreMeta × FileStoreState :=
  let st1 := load_index now false st
  (store_lookup st1.index name, st1)

/-- PQFileStore.delete_script: a failed lookup warns and returns False;
otherwise os.remove (modelled as failing, caught, and returning False
when the path is not on disk) followed by build_index and True. -/
def delete_script (now : Nat) (name : List Char) (st : FileStoreState) :
    Bool × FileStoreState :=
  match fs_get_metadata_by_name now name st with
  | (none, st1) => (false, st1)
  | (some meta, st1) =>
    if st1.files.any (fun f => f.1 == meta.path) then
      (true, build_index now
        { st1 with files := st1.files.filter (fun f => !(f.1 == meta.path)) })
    else (false, st1)

/-- C10: on a store whose in-memory index is loaded and not stale,
delete_script for a name with no index entry (case-insensitive lookup)
returns False and leaves the whole store state — index entries, load
time, index file and disk files — unchanged; no exception path is
taken. -/
theorem delete_script_missing_name_noop (now : Nat) (name : List Char)
    (st : FileStoreState) (hfresh : is_index_stale st = false)
    (hmiss : store_lookup st.index name = none) :
    delete_script now name st = (false, st) := by
  have hload : load_index now false st = st := by
    unfold load_index
    rw [if_neg (by simp [hfresh])]
  unfold delete_script fs_get_metadata_by_name
  rw [hload]
  simp only [hmiss]

/-- C10 witness: a concrete fresh store holding one script, asked to
delete the absent name Ghost. -/
theorem delete_script_missing_name_noop_witness :
    delete_script 9 "Ghost".toList
      ⟨[("a".toList, ⟨"A".toList, "Utils".toList, "/r/a.pq".toList⟩)], 5,
        true, 3, [⟨"A".toList, "Utils".toList, "/r/a.pq".toList⟩],
        [("/r/a.pq".toList, ⟨"A".toList, "Utils".toList, "/r/a.pq".toList⟩)]⟩ =
      (false,
        ⟨[("a".toList, ⟨"A".toList, "Utils".toList, "/r/a.pq".toList⟩)], 5,
          true, 3, [⟨"A".toList, "Utils".toList, "/r/a.pq".toList⟩],
          [("/r/a.pq".toList, ⟨"A".toList, "Utils".toList, "/r/a.pq".toList⟩)]⟩) :=
  delete_script_missing_name_noop 9 "Ghost".toList _ (by decide) (by decide)

end XlPq
